import Mathlib

/-!
Verification of the prerequisite-graph engine of the classroom-tools
repository (the `utils.ts` module used by the fish-visualizer app:
token parsing, prerequisite-model building, topological levelling,
transitive reduction and progress metrics).

The embedding below is a direct shallow translation of the TypeScript
source.  JavaScript `Map`s keyed by strings are modelled either as
association lists (`List (String × β)`, with `assocSet` reproducing
`Map.set`'s update-in-place-or-append behaviour and `assocGet`
reproducing `Map.get`) or, for the integer-valued work maps of the
Kahn traversals, as total functions `String → Int` (the source always
reads them through `map.get(k) ?? 0`, so a total function with default
0 is observationally identical).  JavaScript numbers holding counters
and depths are modelled as `Int` (they are integer-valued in the
source); readiness fractions are modelled as `ℚ`.
-/

namespace PrereqGraph

/-- Association-list update mirroring JavaScript `Map.set`: an existing
key keeps its position and gets the new value, a new key is appended. -/
def assocSet {β : Type} : List (String × β) → String → β → List (String × β)
  | [], k, v => [(k, v)]
  | (k', v') :: rest, k, v =>
    if k' = k then (k, v) :: rest else (k', v') :: assocSet rest k v

/-- Association-list lookup mirroring JavaScript `Map.get` (`none` for a
missing key, as `undefined`). -/
def assocGet {β : Type} : List (String × β) → String → Option β
  | [], _ => none
  | (k', v') :: rest, k => if k' = k then some v' else assocGet rest k

theorem assocGet_assocSet {β : Type} (m : List (String × β)) (k k' : String) (v : β) :
    assocGet (assocSet m k v) k' = if k = k' then some v else assocGet m k' := by
  induction m with
  | nil => simp [assocSet, assocGet]
  | cons hd tl ih =>
    obtain ⟨k0, v0⟩ := hd
    by_cases h0 : k0 = k
    · subst h0
      by_cases h1 : k0 = k'
      · subst h1; simp [assocSet, assocGet]
      · simp [assocSet, assocGet, h1]
    · by_cases h1 : k0 = k'
      · subst h1
        have hkk : ¬ k = k0 := fun h => h0 h.symm
        simp [assocSet, assocGet, h0, hkk]
      · simp [assocSet, assocGet, h0, h1, ih]

/-- Character class of JavaScript regex `\s` restricted to the code
points that can occur in this data (space, tab, line feed, vertical tab,
form feed, carriage return, no-break space). -/
def isJsWs (c : Char) : Bool :=
  c = ' ' || c = '\t' || c = '\n' || c = '\r' || c.toNat = 11 || c.toNat = 12 || c.toNat = 160

/-- Replaces every occurrence of the three-character mojibake sequence
matched by the source regex (LATIN SMALL LETTER A WITH CIRCUMFLEX, EURO
SIGN, QUOTATION MARK) with an en dash, mirroring the first
`String.replace(..., '–')` of `normalizeTokenText`. -/
def replaceMojibake : List Char → List Char
  | 'â' :: '€' :: '"' :: rest => '–' :: replaceMojibake rest
  | c :: rest => c :: replaceMojibake rest
  | [] => []

/-- Collapses every maximal whitespace run to a single space, mirroring
`String.replace(/\s+/g, ' ')`.  The boolean records whether the
previous character was whitespace. -/
def collapseWsGo : Bool → List Char → List Char
  | _, [] => []
  | prevWs, c :: rest =>
    if isJsWs c then
      (if prevWs then [] else [' ']) ++ collapseWsGo true rest
    else c :: collapseWsGo false rest

/-- Removes leading and trailing whitespace, mirroring `String.trim`. -/
def trimWs (l : List Char) : List Char :=
  ((l.dropWhile isJsWs).reverse.dropWhile isJsWs).reverse

/-- Embedding of `normalizeTokenText` for string input: mojibake
en-dash repair, em-dash to en-dash, whitespace collapsing, trim.
(The `value == null` guard of the source concerns non-string input and
is outside this embedding: every call site passes a string.) -/
def normalizeTokenText (s : String) : String :=
  String.mk (trimWs (collapseWsGo false
    ((replaceMojibake s.data).map (fun c => if c = '—' then '–' else c))))

/-- Character class `[A-Z&]` of the source regexes under the `i` flag. -/
def isPfxChar (c : Char) : Bool :=
  ('A' ≤ c && c ≤ 'Z') || ('a' ≤ c && c ≤ 'z') || c = '&'

/-- Character class `\d`. -/
def isDigitChar (c : Char) : Bool := '0' ≤ c && c ≤ '9'

/-- Character class `[–-]` (en dash or hyphen) of `RANGE_REGEX`. -/
def isDashChar (c : Char) : Bool := c = '–' || c = '-'

/-- Exact decimal value of an all-digit string (leading zeros
discarded): the mathematical integer `mathInt` of the `parseInt(s, 10)`
specification.  `parseInt` itself returns the float64 rounding of this
value; that rounding is `roundF64` below. -/
def digitsToNat (l : List Char) : Nat :=
  l.foldl (fun acc c => 10 * acc + (c.toNat - 48)) 0

/-- Uppercasing as applied by `.toUpperCase()` to `[A-Za-z&]+` captures. -/
def upperChars (l : List Char) : List Char := l.map Char.toUpper

/-- Matcher for `SKILL_CODE_REGEX = /^([A-Z&]+)\s*(\d+)$/i`.  Returns
the two captures.  The character classes of the regex are pairwise
disjoint, so greedy matching is deterministic and the regex accepts
exactly the decompositions found here. -/
def codeParse (l : List Char) : Option (List Char × Nat) :=
  let p := l.takeWhile isPfxChar
  let r1 := (l.drop p.length).dropWhile isJsWs
  let d := r1.takeWhile isDigitChar
  if p ≠ [] ∧ d ≠ [] ∧ r1.drop d.length = [] then some (p, digitsToNat d) else none

/-- Matcher for
`RANGE_REGEX = /^([A-Z&]+)\s*(\d+)\s*[–-]\s*(?:([A-Z&]+)\s*)?(\d+)$/i`.
Returns captures (prefix₁, start, optional prefix₂, stop).  As in
`codeParse`, the character classes are disjoint so matching is
deterministic; the optional group is present exactly when a letter
follows the dash. -/
def rangeParse (l : List Char) : Option (List Char × Nat × Option (List Char) × Nat) :=
  let p1 := l.takeWhile isPfxChar
  let r1 := (l.drop p1.length).dropWhile isJsWs
  let d1 := r1.takeWhile isDigitChar
  let r2 := (r1.drop d1.length).dropWhile isJsWs
  match r2 with
  | [] => none
  | dash :: rest =>
    if p1 ≠ [] ∧ d1 ≠ [] ∧ isDashChar dash then
      let r3 := rest.dropWhile isJsWs
      let p2 := r3.takeWhile isPfxChar
      if p2 = [] then
        let d2 := r3.takeWhile isDigitChar
        if d2 ≠ [] ∧ r3.drop d2.length = [] then
          some (p1, digitsToNat d1, none, digitsToNat d2)
        else none
      else
        let r4 := (r3.drop p2.length).dropWhile isJsWs
        let d2 := r4.takeWhile isDigitChar
        if d2 ≠ [] ∧ r4.drop d2.length = [] then
          some (p1, digitsToNat d1, some p2, digitsToNat d2)
        else none
    else none

/-- Single-code fallback branch of `expandSkillToken` (the
`SKILL_CODE_REGEX` match after the range match failed or was
rejected). -/
def expandCode (normalized : String) : List String :=
  match codeParse normalized.data with
  | some (p, n) => [String.mk (upperChars p) ++ " " ++ toString n]
  | none => []

/-- Integer-exact reading of `expandSkillToken`: normalize, try the
range shape, fall back to the single-code shape, otherwise the empty
expansion.  `parseInt` on the all-digit captures can never yield `NaN`,
so the `Number.isNaN` guards of the source are vacuous here.  Capture
values are carried as exact integers; `expandSkillTokenJs` below adds
the float64 rounding that `parseInt` applies and the `Array.from`
length limit, and the two readings agree whenever every capture stays
below `2 ^ 53` and the range span below `2 ^ 32` — in particular on
every appendix token of the scenarios treated in this development. -/
def expandSkillToken (token : String) : List String :=
  let normalized := normalizeTokenText token
  if normalized = "" then []
  else
    match rangeParse normalized.data with
    | some (p1, start, p2opt, stop) =>
      let sp := upperChars p1
      let ep := match p2opt with
        | some p2 => upperChars p2
        | none => sp
      if sp = ep then
        if start ≤ stop then
          (List.range (stop - start + 1)).map
            (fun i => String.mk sp ++ " " ++ toString (start + i))
        else
          (List.range (start - stop + 1)).map
            (fun i => String.mk sp ++ " " ++ toString (start - i))
      else expandCode normalized
    | none => expandCode normalized

/-! Float64 semantics of the token expander.  `expandSkillToken` above
carries the numeric captures exactly; the JavaScript engine instead
computes with IEEE-754 binary64 numbers.  The definitions below model
that arithmetic on the non-negative integers that occur here: `parseInt`
rounds its exact value to the nearest double (`roundF64`, overflowing to
`Infinity` at the `F64_INF` cutoff), the template literal prints a
number with the shortest decimal that rounds back to it
(`jsIntToString`, ECMAScript `Number::toString`), and `Array.from`
raises a `RangeError` — modelled as `none` — when the requested length
reaches `2 ^ 32`. -/

/-- A JavaScript number as produced by `parseInt` on a digit string:
either a finite non-negative integer double (held exactly) or
`Infinity`. -/
inductive JsNum where
  | num (val : Nat)
  | inf

/-- Overflow cutoff of float64: the smallest natural that rounds to
`Infinity`, namely the midpoint `2 ^ 1024 - 2 ^ 970` above the largest
finite double (the tie at the midpoint goes to the even, infinite
side).  Written as a literal so that proofs by `decide` can evaluate
it; `F64_INF_eq` below keeps it honest. -/
def F64_INF : Nat := 179769313486231580793728971405303415079934132710037826936173778980444968292764750946649017977587207096330286416692887910946555547851940402630657488671505820681908902000708383676273854845817711531764475730270069855571366959622842914819860834936475292719074168444365510704342711559699508093042880177904174497792

/-- Fuel-indexed search for the binary-exponent offset of a value: the
number of halvings needed to bring `m` below `2 ^ 53`.  Fuel `1100`
covers every value below `2 ^ 1152`, far beyond the `F64_INF` overflow
cutoff enforced before rounding is ever applied. -/
def f64ExpGo : Nat → Nat → Nat
  | 0, _ => 0
  | fuel + 1, m => if m < 2 ^ 53 then 0 else f64ExpGo fuel (m / 2) + 1

/-- Round-to-nearest-even of a natural number to an IEEE-754 binary64
value, returned as an exact natural.  Below `2 ^ 53` every integer is
representable and returned unchanged; above, the bits beyond the 53-bit
significand are rounded off, ties going to the even significand. -/
def roundF64 (n : Nat) : Nat :=
  if n < 2 ^ 53 then n
  else
    let e := f64ExpGo 1100 n
    let q := n / 2 ^ e
    let r := n % 2 ^ e
    let h := 2 ^ (e - 1)
    let q2 := if h < r ∨ (r = h ∧ q % 2 = 1) then q + 1 else q
    q2 * 2 ^ e

/-- The float64 value of `parseInt(s, 10)` on an all-digit string with
exact value `n`: the rounded double, or `Infinity` past the overflow
cutoff. -/
def jsParseInt (n : Nat) : JsNum :=
  if F64_INF ≤ n then JsNum.inf else JsNum.num (roundF64 n)

/-- Fuel-indexed decimal digit count (`1` for values below ten). -/
def numDigitsGo : Nat → Nat → Nat
  | 0, _ => 0
  | fuel + 1, m => if m < 10 then 1 else numDigitsGo fuel (m / 10) + 1

/-- Decimal digit count of the values handled here (every value below
`10 ^ 1200`). -/
def numDigits (m : Nat) : Nat := numDigitsGo 1200 m

/-- Fuel-indexed removal of trailing decimal zeros. -/
def stripTZGo : Nat → Nat → Nat
  | 0, m => m
  | fuel + 1, m => if m % 10 = 0 ∧ 0 < m then stripTZGo fuel (m / 10) else m

/-- Significand of a decimal candidate: the value with trailing zeros
removed. -/
def sigOf (m : Nat) : Nat := stripTZGo 1200 m

/-- Of the two nearest decimal grid points `c1 ≤ v < c2` at spacing `b`
(with `r` the offset of `v` above `c1`), the one closer to `v`; on an
exact tie the candidate with the even stripped significand, the tie
rule of the ECMAScript number-to-string note. -/
def chooseCloser (b r c1 c2 : Nat) : Nat :=
  if r * 2 < b then c1
  else if b < r * 2 then c2
  else if sigOf c1 % 2 = 0 then c1 else c2

/-- Does the decimal candidate `c` denote the float64 value `v`?
Exactly when `c` stays below the overflow cutoff and rounds to `v`. -/
def roundTrips (v c : Nat) : Bool :=
  decide (c < F64_INF) && decide (roundF64 c = v)

/-- The best decimal representation of `v` on the grid of multiples of
`b`, if any round-trips: of the two grid neighbours of `v`, the closer
round-tripping one.  Any grid point that rounds to `v` lies in an
interval around `v`, so if any round-trips one of the two neighbours
does. -/
def pickCand (v b : Nat) : Option Nat :=
  let q := v / b
  let r := v % b
  let c1 := q * b
  let c2 := (q + 1) * b
  if roundTrips v c1 then
    if roundTrips v c2 then some (chooseCloser b r c1 c2) else some c1
  else if roundTrips v c2 then some c2 else none

/-- First successful candidate over a list of grid spacings (coarsest
first, so the result has the fewest significant digits); `v` itself
when the list is exhausted. -/
def shortestDec (v : Nat) : List Nat → Nat
  | [] => v
  | b :: bs =>
    match pickCand v b with
    | some c => c
    | none => shortestDec v bs

/-- Rendering of the chosen decimal: plain digits up to 21 of them,
exponent notation `s.sss e+(n-1)` beyond, as in ECMAScript
`Number::toString` for positive integers. -/
def jsFormat (c : Nat) : String :=
  if numDigits c ≤ 21 then Nat.repr c
  else
    let s := sigOf c
    let k := numDigits s
    let n := numDigits c
    let str := Nat.repr s
    (if k = 1 then str else str.take 1 ++ "." ++ str.drop 1) ++ "e+" ++ Nat.repr (n - 1)

/-- ECMAScript `Number::toString` (radix 10) on a non-negative
integer-valued double: the shortest decimal that rounds back to the
value, searching grid spacings from one significant digit up. -/
def jsIntToString (v : Nat) : String :=
  if v = 0 then "0"
  else jsFormat (shortestDec v (((List.range (numDigits v)).reverse).map (fun i => 10 ^ i)))

/-- String conversion of a `JsNum` as performed by a template
literal. -/
def jsNumToString : JsNum → String
  | JsNum.num v => jsIntToString v
  | JsNum.inf => "Infinity"

/-- Single-code branch of `expandSkillToken` under float64 semantics:
the capture value is parsed by `parseInt` (rounding, possibly to
`Infinity`) and printed back. -/
def expandCodeJs (normalized : String) : List String :=
  match codeParse normalized.data with
  | some (p, n) => [String.mk (upperChars p) ++ " " ++ jsNumToString (jsParseInt n)]
  | none => []

/-- Range construction on two finite parsed values.  `Math.abs(end -
start)` rounds the exact difference (on non-negative integer doubles
the two operations commute with taking the distance), `+ 1` rounds
again, and `Array.from` raises a `RangeError` — `none` — when the
length reaches `2 ^ 32`.  In the surviving branch the length is exact,
so the truncated subtraction `s - i` never bottoms out: `i` stays at
most `s - e0`.  Each emitted value `start + index * step` is again a
rounded double. -/
def jsRangeList (sp : List Char) (s e0 : Nat) : Option (List String) :=
  let a := roundF64 (max s e0 - min s e0)
  let count := roundF64 (a + 1)
  if 2 ^ 32 ≤ count then none
  else some ((List.range count).map (fun i =>
    String.mk sp ++ " " ++ jsIntToString (roundF64 (if s ≤ e0 then s + i else s - i))))

/-- The range branch on the parsed bounds.  Both bounds `Infinity`
makes the length `NaN`, which `ToLength` clamps to `0` — an empty
expansion; exactly one `Infinity` makes the length infinite and
`Array.from` raises a `RangeError`. -/
def jsRange (sp : List Char) (start stop : Nat) : Option (List String) :=
  match jsParseInt start, jsParseInt stop with
  | JsNum.num s, JsNum.num e0 => jsRangeList sp s e0
  | JsNum.inf, JsNum.inf => some []
  | _, _ => none

/-- Embedding of `expandSkillToken` under full float64 semantics:
identical to `expandSkillToken` up to the parse, then `parseInt`
rounding, double arithmetic and `Number::toString` printing throughout;
`none` models the `RangeError` thrown by `Array.from` on an oversized
range. -/
def expandSkillTokenJs (token : String) : Option (List String) :=
  let normalized := normalizeTokenText token
  if normalized = "" then some []
  else
    match rangeParse normalized.data with
    | some (p1, start, p2opt, stop) =>
      let sp := upperChars p1
      let ep := match p2opt with
        | some p2 => upperChars p2
        | none => sp
      if sp = ep then jsRange sp start stop
      else some (expandCodeJs normalized)
    | none => some (expandCodeJs normalized)

/-- Lazy capture of group 2 of `OR_REGEX = /^(.+?)\s*\(\s*or\s+(.+?)\s*\)$/i`:
the shortest nonempty segment whose remainder is whitespace followed by
the closing parenthesis at end of input (the deterministic reading of
the trailing `\s*\)$`). -/
def lazyOrTail : List Char → Option (List Char)
  | [] => none
  | c :: rest =>
    if rest.dropWhile isJsWs = [')'] then some [c]
    else (lazyOrTail rest).map (fun b => c :: b)

/-- Backtracking over the greedy `\s+` of `OR_REGEX`: the argument list
starts at the whitespace run after `or`; try consuming `k` whitespace
characters, from the full run down to one, and take the first
alternative for which the lazy capture succeeds (the regex engine's
greedy-then-backtrack order). -/
def orWsScan : Nat → List Char → Option (List Char)
  | 0, _ => none
  | k + 1, l =>
    match lazyOrTail (l.drop (k + 1)) with
    | some b => some b
    | none => orWsScan k l

/-- Matches `\s*\(\s*or\s+(.+?)\s*\)$` against the remainder after the
first capture group of `OR_REGEX`.  The `\s*` runs before literal
characters are deterministic because backtracking into them can never
help. -/
def orRest (rest : List Char) : Option (List Char) :=
  match rest.dropWhile isJsWs with
  | '(' :: r1 =>
    match r1.dropWhile isJsWs with
    | o :: r :: r2 =>
      if (o = 'o' ∨ o = 'O') ∧ (r = 'r' ∨ r = 'R') then
        let ws := r2.takeWhile isJsWs
        if ws.length = 0 then none else orWsScan ws.length r2
      else none
    | _ => none
  | _ => none

/-- Full matcher for `OR_REGEX`: the lazy first group grows one
character at a time (shortest first) until the remainder matches
`orRest`.  Returns the two captures. -/
def orSplit : List Char → List Char → Option (List Char × List Char)
  | _, [] => none
  | acc, c :: rest =>
    let acc' := acc ++ [c]
    match orRest rest with
    | some b => some (acc', b)
    | none => orSplit acc' rest

/-- Word-character class `\w`, used for the `\b` in `/^none\b/i`. -/
def isWordChar (c : Char) : Bool :=
  ('A' ≤ c && c ≤ 'Z') || ('a' ≤ c && c ≤ 'z') || ('0' ≤ c && c ≤ '9') || c = '_'

/-- Test for `/^none\b/i.test(token)`: the token starts with the four
letters of "none" (case-insensitively) followed by a word boundary. -/
def isNoneToken (l : List Char) : Bool :=
  match l with
  | c1 :: c2 :: c3 :: c4 :: rest =>
    (c1 = 'n' ∨ c1 = 'N') ∧ (c2 = 'o' ∨ c2 = 'O') ∧ (c3 = 'n' ∨ c3 = 'N') ∧
      (c4 = 'e' ∨ c4 = 'E') ∧ (rest = [] ∨ ∃ c5 ∈ rest.head?, ¬ isWordChar c5)
  | _ => false

/-- Edge classification of the prerequisite model. -/
inductive EdgeType : Type
  | required : EdgeType
  | or : EdgeType
deriving DecidableEq, Repr

/-- Embedding of `setEdgeType`: a `required` classification is permanent
and cannot be downgraded to `or`. -/
def setEdgeType (m : List (String × EdgeType)) (sourceId targetId : String)
    (edgeType : EdgeType) : List (String × EdgeType) :=
  let edgeKey := sourceId ++ "=>" ++ targetId
  if edgeType = EdgeType.required ∨ assocGet m edgeKey ≠ some EdgeType.required then
    assocSet m edgeKey edgeType
  else m

/-- First-occurrence deduplication of a string list.  Equivalent to the
source's `array.indexOf(x) === index` filter idiom (keep an element
exactly when it is the first occurrence of its value). -/
def dedupFirstGo (seen : List String) : List String → List String
  | [] => []
  | x :: rest =>
    if x ∈ seen then dedupFirstGo seen rest else x :: dedupFirstGo (x :: seen) rest

def dedupFirst (l : List String) : List String := dedupFirstGo [] l

/-- Result record of `buildPrerequisiteModel`. -/
structure PrerequisiteModel : Type where
  groupsByTarget : List (String × List (List String))
  edgeTypeByKey : List (String × EdgeType)
  groupCountByTarget : List (String × Nat)
deriving DecidableEq, Repr

/-- Processing of one raw prerequisite token for a target, mirroring the
inner loop of `buildPrerequisiteModel`: skip empty and "none" tokens,
build one OR group from the union of the two expansions of an OR
wrapper (deduplicated, filtered to valid IDs, skipped when empty), and
otherwise push one required singleton group per expanded ID.  The
source applies its first-occurrence-and-valid filter in a single pass;
`dedupFirst` followed by the validity filter selects exactly the same
elements in the same order because first-occurrence indices do not
depend on validity. -/
def processToken (validNodes : List String) (targetId : String)
    (st : List (List String) × List (String × EdgeType)) (rawToken : String) :
    List (List String) × List (String × EdgeType) :=
  let token := normalizeTokenText rawToken
  if token = "" then st
  else if isNoneToken token.data then st
  else
    match orSplit [] token.data with
    | some (part1, part2) =>
      let alternatives :=
        (dedupFirst (expandSkillToken (String.mk part1) ++ expandSkillToken (String.mk part2))).filter
          (fun skillId => decide (skillId ∈ validNodes))
      if alternatives ≠ [] then
        (st.1 ++ [alternatives],
          alternatives.foldl
            (fun ets sourceId =>
              setEdgeType ets sourceId targetId
                (if alternatives.length > 1 then EdgeType.or else EdgeType.required))
            st.2)
      else st
    | none =>
      let expanded := (expandSkillToken token).filter (fun skillId => decide (skillId ∈ validNodes))
      expanded.foldl
        (fun acc sourceId =>
          (acc.1 ++ [[sourceId]], setEdgeType acc.2 sourceId targetId EdgeType.required))
        st

/-- Processing of one `appendixA` entry (target plus raw token list). -/
def buildTarget (validNodes : List String) (model : PrerequisiteModel)
    (entry : String × List String) : PrerequisiteModel :=
  if decide (entry.1 ∈ validNodes) then
    let res := entry.2.foldl (processToken validNodes entry.1) ([], model.edgeTypeByKey)
    { groupsByTarget := assocSet model.groupsByTarget entry.1 res.1
      edgeTypeByKey := res.2
      groupCountByTarget := assocSet model.groupCountByTarget entry.1 res.1.length }
  else model

/-- Embedding of `buildPrerequisiteModel`.  `appendixAData` is the entry
list of the input object in insertion order (`Object.entries`), with its
unique keys; `validNodeIds` is the valid-ID set (membership only). -/
def buildPrerequisiteModel (appendixAData : List (String × List String))
    (validNodeIds : List String) : PrerequisiteModel :=
  appendixAData.foldl (buildTarget validNodeIds) ⟨[], [], []⟩

/-- The three progress statuses. -/
inductive ProgressStatus : Type
  | notStarted : ProgressStatus
  | inProgress : ProgressStatus
  | mastered : ProgressStatus
deriving DecidableEq, Repr

/-- Embedding of `normalizeProgressStatus` (unrecognized or missing
values normalize to not-started). -/
def normalizeProgressStatus : Option String → ProgressStatus
  | some s =>
    if s = "mastered" then ProgressStatus.mastered
    else if s = "in-progress" then ProgressStatus.inProgress
    else ProgressStatus.notStarted
  | none => ProgressStatus.notStarted

/-- Aggregate tallies of `computeProgressMetrics`. -/
structure StatusCounts : Type where
  notStarted : Nat
  inProgress : Nat
  mastered : Nat
  readyNow : Nat
deriving DecidableEq, Repr

/-- Result record of `computeProgressMetrics`. -/
structure ProgressMetrics : Type where
  stateById : List (String × ProgressStatus)
  readinessById : List (String × ℚ)
  satisfiedById : List (String × Nat)
  totalById : List (String × Nat)
  readyNowIds : List String
  counts : StatusCounts
deriving DecidableEq, Repr

/-- A skill node.  Of the `SkillNode` record of the source, only the
`id` field is ever read by the functions under verification, so the
embedding carries just that field. -/
structure SkillNode : Type where
  id : String
deriving DecidableEq, Repr

/-- A directed prerequisite edge.  The source's link endpoints are
either raw string IDs or node objects (D3 rewrites them in place) and
are always read through `getNodeId`; the embedding therefore carries
the endpoint IDs directly. -/
structure SkillLink : Type where
  source : String
  target : String
deriving DecidableEq, Repr

/-- A prerequisite group is satisfied when any of its alternatives is
mastered. -/
def groupSatisfied (progress : String → Option String) (group : List String) : Bool :=
  group.any (fun altId => decide (normalizeProgressStatus (progress altId) = ProgressStatus.mastered))

def countsAdd (c : StatusCounts) : ProgressStatus → StatusCounts
  | ProgressStatus.notStarted => { c with notStarted := c.notStarted + 1 }
  | ProgressStatus.inProgress => { c with inProgress := c.inProgress + 1 }
  | ProgressStatus.mastered => { c with mastered := c.mastered + 1 }

/-- Main loop of `computeProgressMetrics` over the node list.  The
progress-state input is modelled as the lookup function of the caller's
map (`Map.get` / object indexing): `none` for an absent entry. -/
def computeProgressMetricsGo (groupsByTarget : List (String × List (List String)))
    (progress : String → Option String) : List SkillNode → ProgressMetrics → ProgressMetrics
  | [], acc => acc
  | node :: rest, acc =>
    let status := normalizeProgressStatus (progress node.id)
    let prerequisiteGroups := (assocGet groupsByTarget node.id).getD []
    let totalGroups := prerequisiteGroups.length
    let satisfiedGroups := prerequisiteGroups.countP (groupSatisfied progress)
    let readiness : ℚ := if totalGroups = 0 then 1 else (satisfiedGroups : ℚ) / (totalGroups : ℚ)
    let ready := status ≠ ProgressStatus.mastered ∧ (1 : ℚ) ≤ readiness
    computeProgressMetricsGo groupsByTarget progress rest
      { stateById := assocSet acc.stateById node.id status
        readinessById := assocSet acc.readinessById node.id readiness
        satisfiedById := assocSet acc.satisfiedById node.id satisfiedGroups
        totalById := assocSet acc.totalById node.id totalGroups
        readyNowIds := if ready then acc.readyNowIds ++ [node.id] else acc.readyNowIds
        counts := countsAdd acc.counts status }

/-- Embedding of `computeProgressMetrics`: per-node readiness from
satisfied/total prerequisite groups, the ready-now list, and the final
tallies (`counts.readyNow` is set to the ready-now list length at the
end, as in the source). -/
def computeProgressMetrics (nodes : List SkillNode)
    (groupsByTarget : List (String × List (List String)))
    (progress : String → Option String) : ProgressMetrics :=
  let m := computeProgressMetricsGo groupsByTarget progress nodes
    ⟨[], [], [], [], [], ⟨0, 0, 0, 0⟩⟩
  { m with counts := { m.counts with readyNow := m.readyNowIds.length } }

/-- Edge identity key used by the source (`u=>v` string concatenation). -/
def linkKey (l : SkillLink) : String := l.source ++ "=>" ++ l.target

/-- The first pass of `transitiveReduceLinks`: drop links whose
endpoints are not both in the node set and deduplicate by `linkKey`,
first occurrence winning (iteration order of `uniqueLinks.values()` is
insertion order). -/
def dedupValidLinks (nodeIds : List String) : List SkillLink → List String → List SkillLink
  | [], _ => []
  | l :: rest, seen =>
    if l.source ∈ nodeIds ∧ l.target ∈ nodeIds then
      if linkKey l ∈ seen then dedupValidLinks nodeIds rest seen
      else l :: dedupValidLinks nodeIds rest (linkKey l :: seen)
    else dedupValidLinks nodeIds rest seen

/-- Endpoint pairs of a link list. -/
def linkPairs (links : List SkillLink) : List (String × String) :=
  links.map (fun l => (l.source, l.target))

/-- The links of `links` whose endpoints both belong to `nodeIds`, as
endpoint pairs: the edge multiset of the induced subgraph.  Both graph
traversals of the source skip exactly the other links. -/
def validPairs (nodeIds : List String) (links : List SkillLink) : List (String × String) :=
  linkPairs (links.filter (fun l => decide (l.source ∈ nodeIds) && decide (l.target ∈ nodeIds)))

/-- Outgoing-adjacency function of an edge-pair list, in edge order
(the source builds these lists by pushing while scanning the edges). -/
def outOf (E : List (String × String)) (u : String) : List String :=
  (E.filter (fun e => decide (e.1 = u))).map (fun e => e.2)

/-- Incoming-adjacency function of an edge-pair list, in edge order. -/
def inOf (E : List (String × String)) (v : String) : List String :=
  (E.filter (fun e => decide (e.2 = v))).map (fun e => e.1)

/-- In-degree of a node as an integer (JavaScript counters are
numbers; they are decremented below zero by the traversal in corner
cases, so the embedding uses `Int`). -/
def inDegI (E : List (String × String)) (v : String) : Int :=
  (E.countP (fun e => decide (e.2 = v)) : Nat)

/-- One dequeue's edge relaxation: for each outgoing target in order,
raise its depth to `max(depth, du + 1)`, decrement its remaining
in-degree, and push it exactly when the counter lands on zero.  `du` is
the dequeued node's depth captured before the loop, as in the source. -/
def relaxOut (du : Int) : List String → (String → Int) → (String → Int) → List String →
    ((String → Int) × (String → Int) × List String)
  | [], depth, remaining, pushed => (depth, remaining, pushed)
  | t :: ts, depth, remaining, pushed =>
    let nd := max (depth t) (du + 1)
    let depth' := fun x => if x = t then nd else depth x
    let nr := remaining t - 1
    let remaining' := fun x => if x = t then nr else remaining x
    relaxOut du ts depth' remaining' (if nr = 0 then pushed ++ [t] else pushed)

/-- Fuel-indexed Kahn traversal shared by `calculateProgressionMetrics`
and `transitiveReduceLinks`.  The source's `while (head < queue.length)`
loop terminates because the measure `pending.length + #positive
counters` strictly decreases each iteration; `kahnRun` supplies fuel
equal to the initial value of that measure, and `kahnFuel_fuelFree`
below shows the result is then fuel-independent, i.e. the loop has run
to completion.  Returns (depth, remaining, topo); the depth component
is ignored by the transitive reducer and the topo component by the
progression scorer, with no effect on the shared control flow. -/
def kahnFuel (out : String → List String) :
    Nat → List String → (String → Int) → (String → Int) → List String →
    ((String → Int) × (String → Int) × List String)
  | 0, _, depth, remaining, topo => (depth, remaining, topo)
  | _ + 1, [], depth, remaining, topo => (depth, remaining, topo)
  | fuel + 1, u :: rest, depth, remaining, topo =>
    let r := relaxOut (depth u) (out u) depth remaining []
    kahnFuel out fuel (rest ++ r.2.2) r.1 r.2.1 (topo ++ [u])

/-- Number of strictly positive counters over the node-ID list. -/
def posCount (ids : List String) (remaining : String → Int) : Nat :=
  ids.countP (fun id => decide (0 < remaining id))

/-- Kahn traversal of the source: seed with the zero-in-degree nodes
(in node order), all depths zero, and process to completion.  Since all
counters start non-negative, the initial measure `seeds.length +
posCount ids inDeg` equals `ids.length`, which is the fuel supplied. -/
def kahnRun (out : String → List String) (ids : List String) (inDeg : String → Int) :
    (String → Int) × (String → Int) × List String :=
  kahnFuel out ids.length (ids.filter (fun id => decide (inDeg id = 0))) (fun _ => 0) inDeg []

/-- Membership-based set insertion (JavaScript `Set.add`). -/
def listAdd (l : List String) (y : String) : List String :=
  if y ∈ l then l else l ++ [y]

def descAdd (d : String → List String) (src y : String) : String → List String :=
  fun x => if x = src then listAdd (d src) y else d x

/-- Processing of one direct successor `t` of `src` in the descendant
closure: add `t`, then every element of `t`'s current descendant set.
The source iterates the live set `descendants.get(targetId)`; when
`t = src` every element of that set is already a member of the set
being extended, so iterating the snapshot `d t` is equivalent. -/
def descStep (src : String) (d : String → List String) (t : String) : String → List String :=
  (d t).foldl (fun dd y => descAdd dd src y) (descAdd d src t)

/-- Descendant-set computation of `transitiveReduceLinks`: process the
given node order (the reverse topological order), folding each node's
direct successors. -/
def buildDescendants (out : String → List String) :
    List String → (String → List String) → (String → List String)
  | [], d => d
  | src :: rest, d => buildDescendants out rest ((out src).foldl (descStep src) d)

/-- Redundancy test of `transitiveReduceLinks`: some other direct
successor of the link's source already has the link's target in its
descendant set (the source's `for`/`break` search is `List.any`). -/
def isRedundant (out : String → List String) (desc : String → List String)
    (l : SkillLink) : Bool :=
  (out l.source).any (fun w => decide (w ≠ l.target) && decide (l.target ∈ desc w))

/-- Body of `transitiveReduceLinks` after the empty-input guard. -/
def transitiveReduceCore (nodes : List SkillNode) (links : List SkillLink) : List SkillLink :=
  let nodeIds := nodes.map (fun n => n.id)
  let uniqueLinks := dedupValidLinks nodeIds links []
  let out := outOf (linkPairs uniqueLinks)
  let res := kahnRun out nodeIds (inDegI (linkPairs uniqueLinks))
  let topo := res.2.2
  if topo.length = nodeIds.length then
    let desc := buildDescendants out topo.reverse (fun _ => [])
    uniqueLinks.filter (fun l => ! isRedundant out desc l)
  else uniqueLinks

/-- Embedding of `transitiveReduceLinks`, including the
`!nodes?.length || !links?.length` guard (`none` models a
null/undefined argument; the guard returns `links ?? []`). -/
def transitiveReduceLinks (nodes : Option (List SkillNode)) (links : Option (List SkillLink)) :
    List SkillLink :=
  match nodes, links with
  | some ns, some ls =>
    if ns = [] ∨ ls = [] then ls else transitiveReduceCore ns ls
  | none, some ls => ls
  | _, none => []

/-- Result record of `calculateProgressionMetrics`.  The two maps are
modelled as their lookup functions: the source fills both maps for
exactly the node IDs and always reads them through `.get(id) ?? 0`
(respectively `?? 0.5` for scores). -/
structure ProgressionMetricsResult : Type where
  scoreById : String → ℚ
  depthById : String → Int
  maxDepth : Int

/-- Fallback depth estimation for nodes never dequeued (cycle members):
in node order, assign `1 + max(current depth of the direct
prerequisites)`, skipping nodes without prerequisites.  Note the reads
see the updates made for earlier nodes of the same pass. -/
def fallbackDepth (incoming : String → List String) :
    List String → (String → Int) → (String → Int)
  | [], depth => depth
  | id :: rest, depth =>
    match incoming id with
    | [] => fallbackDepth incoming rest depth
    | p :: ps =>
      let est := ps.foldl (fun m q => max m (depth q)) (depth p) + 1
      fallbackDepth incoming rest (fun x => if x = id then est else depth x)

/-- Maximum of `depth` over the node IDs with floor `lo`, mirroring
`Math.max(lo, ...depth.values())` (duplicate IDs collapse in the map
but do not change the maximum). -/
def maxDepthOver (ids : List String) (depth : String → Int) (lo : Int) : Int :=
  ids.foldl (fun m id => max m (depth id)) lo

def clamp01 (q : ℚ) : ℚ := max 0 (min 1 q)

/-- Embedding of `calculateProgressionMetrics`.  Depths follow the
source exactly (Kahn longest-path pass, then the sequential fallback
for unresolved nodes).  The floating-point score arithmetic of the
source is modelled over `ℚ`; no claim under verification concerns the
scores. -/
def calculateProgressionMetrics (nodes : List SkillNode) (links : List SkillLink) :
    ProgressionMetricsResult :=
  let nodeIds := nodes.map (fun n => n.id)
  let E := validPairs nodeIds links
  let res := kahnRun (outOf E) nodeIds (inDegI E)
  let kahnDepth := res.1
  let remaining := res.2.1
  let unresolvedIds := nodeIds.filter (fun id => decide (0 < remaining id))
  let depth := fallbackDepth (inOf E) unresolvedIds kahnDepth
  let maxDepth := maxDepthOver nodeIds depth 1
  let outDeg := fun u => (E.countP (fun e => decide (e.1 = u)) : Int)
  let maxInDegree := maxDepthOver nodeIds (inDegI E) 1
  let maxOutDegree := maxDepthOver nodeIds outDeg 1
  let raw := fun id => (0.70 : ℚ) * ((depth id : ℚ) / (maxDepth : ℚ))
    + (0.45 : ℚ) * ((inDegI E id : ℚ) / (maxInDegree : ℚ))
    - (0.25 : ℚ) * ((outDeg id : ℚ) / (maxOutDegree : ℚ))
  let score := fun id =>
    match nodeIds with
    | [] => (0.5 : ℚ)
    | i0 :: restIds =>
      let rawMin := restIds.foldl (fun m j => min m (raw j)) (raw i0)
      let rawMax := restIds.foldl (fun m j => max m (raw j)) (raw i0)
      if rawMax = rawMin then (0.5 : ℚ) else clamp01 ((raw id - rawMin) / (rawMax - rawMin))
  { scoreById := score, depthById := depth, maxDepth := maxDepth }

/-! Helper counting lemmas for the Kahn-traversal invariants. -/

/-- Occurrence count of a string in a list. -/
def cntS (ts : List String) (x : String) : Nat :=
  ts.countP (fun y => decide (y = x))

theorem cntS_nil (x : String) : cntS [] x = 0 := rfl

theorem cntS_cons (t : String) (ts : List String) (x : String) :
    cntS (t :: ts) x = cntS ts x + (if t = x then 1 else 0) := by
  simp [cntS, List.countP_cons]

theorem cntS_pos_iff_mem (ts : List String) (x : String) : 0 < cntS ts x ↔ x ∈ ts := by
  induction ts with
  | nil => simp [cntS]
  | cons t ts ih =>
    rw [cntS_cons]
    by_cases h : t = x
    · subst h; simp
    · simp [h, Ne.symm h, ih]

theorem countP_disj_add {α : Type} (l : List α) (p q : α → Bool)
    (hdis : ∀ a ∈ l, ¬(p a = true ∧ q a = true)) :
    l.countP (fun a => p a || q a) = l.countP p + l.countP q := by
  induction l with
  | nil => simp
  | cons a l ih =>
    have hd := hdis a (by simp)
    have ih' := ih (fun b hb => hdis b (by simp [hb]))
    by_cases hp : p a = true
    · by_cases hq : q a = true
      · exact absurd ⟨hp, hq⟩ hd
      · simp [List.countP_cons, hp, hq, ih']; omega
    · by_cases hq : q a = true
      · simp [List.countP_cons, hp, hq, ih']; omega
      · simp [List.countP_cons, hp, hq, ih']

theorem countP_saturated {α : Type} (l : List α) (p q : α → Bool)
    (himp : ∀ a ∈ l, p a = true → q a = true)
    (hcnt : l.countP q ≤ l.countP p) :
    ∀ a ∈ l, q a = true → p a = true := by
  induction l with
  | nil => simp
  | cons a l ih =>
    have hmono : l.countP p ≤ l.countP q :=
      List.countP_mono_left (fun b hb => himp b (by simp [hb]))
    by_cases hp : p a = true
    · intro b hb hq
      rcases List.mem_cons.mp hb with hba | hbl
      · subst hba; exact hp
      · have himp' : ∀ c ∈ l, p c = true → q c = true :=
          fun c hc => himp c (by simp [hc])
        have hcnt' : l.countP q ≤ l.countP p := by
          simp [List.countP_cons, hp, himp a (by simp) hp] at hcnt
          omega
        exact ih himp' hcnt' b hbl hq
    · intro b hb hq
      rcases List.mem_cons.mp hb with hba | hbl
      · subst hba
        exfalso
        simp [List.countP_cons, hp, hq] at hcnt
        omega
      · have himp' : ∀ c ∈ l, p c = true → q c = true :=
          fun c hc => himp c (by simp [hc])
        have hcnt' : l.countP q ≤ l.countP p := by
          simp [List.countP_cons, hp] at hcnt
          by_cases hqa : q a = true <;> simp [hqa] at hcnt <;> omega
        exact ih himp' hcnt' b hbl hq

theorem countP_lt_exists {α : Type} (l : List α) (p q : α → Bool)
    (hlt : l.countP p < l.countP q) :
    ∃ a ∈ l, q a = true ∧ p a = false := by
  by_contra hno
  push_neg at hno
  have hqp : ∀ a ∈ l, q a = true → p a = true := by
    intro a ha hq
    cases hpa : p a with
    | false => exact absurd hpa (hno a ha hq)
    | true => rfl
  have := List.countP_mono_left hqp
  omega

theorem countP_pigeonhole {q : List String} :
    ∀ (ids : List String) (p1 p2 : String → Bool),
    q.Nodup → (∀ x ∈ q, x ∈ ids ∧ p1 x = true ∧ p2 x = false) →
    (∀ x, p2 x = true → p1 x = true) →
    ids.countP p2 + q.length ≤ ids.countP p1 := by
  induction q with
  | nil =>
    intro ids p1 p2 _ _ himp
    simpa using List.countP_mono_left (fun a _ => himp a)
  | cons y q ih =>
    intro ids p1 p2 hnd hmem himp
    obtain ⟨hy_ids, hy_p1, hy_p2⟩ := hmem y (by simp)
    obtain ⟨s, t, rfl⟩ := List.append_of_mem hy_ids
    have hnd' : q.Nodup := (List.nodup_cons.mp hnd).2
    have hyq : y ∉ q := (List.nodup_cons.mp hnd).1
    have hmem' : ∀ x ∈ q, x ∈ s ++ t ∧ p1 x = true ∧ p2 x = false := by
      intro x hx
      obtain ⟨hx_ids, h1, h2⟩ := hmem x (by simp [hx])
      refine ⟨?_, h1, h2⟩
      have hxy : x ≠ y := fun h => hyq (h ▸ hx)
      simp only [List.mem_append, List.mem_cons] at hx_ids
      rcases hx_ids with h | h | h
      · exact List.mem_append.mpr (Or.inl h)
      · exact absurd h hxy
      · exact List.mem_append.mpr (Or.inr h)
    have IH := ih (s ++ t) p1 p2 hnd' hmem' himp
    simp [List.countP_append, List.countP_cons, hy_p1, hy_p2] at IH ⊢
    omega

/-! Pointwise characterizations of `relaxOut`. -/

theorem relaxOut_depth (du : Int) :
    ∀ (ts : List String) (depth remaining : String → Int) (pushed : List String) (x : String),
    (relaxOut du ts depth remaining pushed).1 x =
      if x ∈ ts then max (depth x) (du + 1) else depth x := by
  intro ts
  induction ts with
  | nil => intro depth remaining pushed x; simp [relaxOut]
  | cons t ts ih =>
    intro depth remaining pushed x
    simp only [relaxOut]
    rw [ih]
    by_cases hxts : x ∈ ts
    · simp only [hxts, if_true, List.mem_cons, or_true, if_true]
      by_cases hxt : x = t
      · subst hxt
        simp [max_assoc]
      · simp [hxt]
    · by_cases hxt : x = t
      · subst hxt
        simp [hxts]
      · simp [hxts, hxt]

theorem relaxOut_remaining (du : Int) :
    ∀ (ts : List String) (depth remaining : String → Int) (pushed : List String) (x : String),
    (relaxOut du ts depth remaining pushed).2.1 x = remaining x - (cntS ts x : Int) := by
  intro ts
  induction ts with
  | nil => intro depth remaining pushed x; simp [relaxOut, cntS]
  | cons t ts ih =>
    intro depth remaining pushed x
    simp only [relaxOut]
    rw [ih, cntS_cons]
    by_cases hxt : x = t
    · subst hxt; simp; ring
    · have hne : ¬ t = x := fun h => hxt h.symm
      simp [hxt, hne]

theorem relaxOut_pushed_mem (du : Int) :
    ∀ (ts : List String) (depth remaining : String → Int) (pushed : List String) (x : String),
    (x ∈ (relaxOut du ts depth remaining pushed).2.2 ↔
      x ∈ pushed ∨ (x ∈ ts ∧ 1 ≤ remaining x ∧ remaining x ≤ (cntS ts x : Int))) := by
  intro ts
  induction ts with
  | nil => intro depth remaining pushed x; simp [relaxOut, cntS]
  | cons t ts ih =>
    intro depth remaining pushed x
    have hstep : (relaxOut du (t :: ts) depth remaining pushed).2.2 =
        (relaxOut du ts (fun y => if y = t then max (depth t) (du + 1) else depth y)
          (fun y => if y = t then remaining t - 1 else remaining y)
          (if remaining t - 1 = 0 then pushed ++ [t] else pushed)).2.2 := rfl
    rw [hstep, ih]
    have hnn : (0 : Int) ≤ (cntS ts x : Int) := Int.ofNat_nonneg _
    by_cases hxt : x = t
    · subst hxt
      have hc : cntS (x :: ts) x = cntS ts x + 1 := by rw [cntS_cons]; simp
      rw [if_pos (rfl : x = x), hc]
      by_cases hr1 : remaining x - 1 = 0
      · rw [if_pos hr1]
        push_cast
        constructor
        · intro _
          exact Or.inr ⟨by simp, by omega, by omega⟩
        · intro _
          exact Or.inl (by simp)
      · rw [if_neg hr1]
        push_cast
        constructor
        · rintro (h | ⟨hm, h1, h2⟩)
          · exact Or.inl h
          · exact Or.inr ⟨by simp [hm], by omega, by omega⟩
        · rintro (h | ⟨hm, h1, h2⟩)
          · exact Or.inl h
          · refine Or.inr ⟨?_, by omega, by omega⟩
            rw [← cntS_pos_iff_mem]
            omega
    · have hc : cntS (t :: ts) x = cntS ts x := by
        rw [cntS_cons, if_neg (Ne.symm hxt), Nat.add_zero]
      rw [if_neg hxt, hc]
      by_cases hr1 : remaining t - 1 = 0
      · rw [if_pos hr1]
        simp [List.mem_append, List.mem_cons, hxt]
      · rw [if_neg hr1]
        simp [List.mem_cons, hxt]

theorem relaxOut_pushed_nodup (du : Int) :
    ∀ (ts : List String) (depth remaining : String → Int) (pushed : List String),
    pushed.Nodup → (∀ x ∈ pushed, remaining x ≤ 0) →
    (relaxOut du ts depth remaining pushed).2.2.Nodup := by
  intro ts
  induction ts with
  | nil => intro depth remaining pushed hnd _; exact hnd
  | cons t ts ih =>
    intro depth remaining pushed hnd hle
    have hstep : (relaxOut du (t :: ts) depth remaining pushed).2.2 =
        (relaxOut du ts (fun y => if y = t then max (depth t) (du + 1) else depth y)
          (fun y => if y = t then remaining t - 1 else remaining y)
          (if remaining t - 1 = 0 then pushed ++ [t] else pushed)).2.2 := rfl
    rw [hstep]
    by_cases hr1 : remaining t - 1 = 0
    · rw [if_pos hr1]
      apply ih
      · have htp : t ∉ pushed := by
          intro hmem
          have := hle t hmem
          omega
        simp [List.nodup_append, hnd, htp]
      · intro x hx
        rcases List.mem_append.mp hx with h | h
        · have hx0 := hle x h
          by_cases hxt : x = t
          · subst hxt; simp; omega
          · simpa [hxt] using hx0
        · simp at h
          subst h
          simp; omega
    · rw [if_neg hr1]
      apply ih _ _ _ hnd
      intro x hx
      have hx0 := hle x hx
      by_cases hxt : x = t
      · subst hxt; simp; omega
      · simpa [hxt] using hx0

/-- One relaxation step cannot increase the measure `pushes +
positive counters`: every pushed node's counter moves from positive to
non-positive. -/
theorem relaxOut_posCount (du : Int) (ts : List String) (depth remaining : String → Int)
    (ids : List String) (hts : ∀ t ∈ ts, t ∈ ids) :
    posCount ids (relaxOut du ts depth remaining []).2.1
      + (relaxOut du ts depth remaining []).2.2.length ≤ posCount ids remaining := by
  set q := (relaxOut du ts depth remaining []).2.2 with hq
  have hqn : q.Nodup := relaxOut_pushed_nodup du ts depth remaining [] (by simp) (by simp)
  have hqc : ∀ x ∈ q, x ∈ ids ∧ decide (0 < remaining x) = true
      ∧ decide (0 < (relaxOut du ts depth remaining []).2.1 x) = false := by
    intro x hx
    have hm := (relaxOut_pushed_mem du ts depth remaining [] x).mp hx
    simp only [List.not_mem_nil, false_or] at hm
    obtain ⟨hmem, h1, h2⟩ := hm
    refine ⟨hts x hmem, by simp; omega, ?_⟩
    rw [relaxOut_remaining]
    simp
    omega
  have himp : ∀ x, decide (0 < (relaxOut du ts depth remaining []).2.1 x) = true →
      decide (0 < remaining x) = true := by
    intro x h
    rw [relaxOut_remaining] at h
    simp at h ⊢
    have : (0 : Int) ≤ (cntS ts x : Int) := by positivity
    omega
  exact countP_pigeonhole ids _ _ hqn hqc himp

/-- Fuel indifference of the Kahn loop above the measure `pending
length + positive counters`: with the fuel supplied by `kahnRun` the
loop runs to completion, so the fuel-indexed definition agrees with the
unbounded `while` loop of the source. -/
theorem kahnFuel_fuelFree (out : String → List String) (ids : List String)
    (hout : ∀ u, ∀ t ∈ out u, t ∈ ids) :
    ∀ (fuel : Nat) (pending : List String) (depth remaining : String → Int)
      (topo : List String),
    pending.length + posCount ids remaining ≤ fuel →
    kahnFuel out fuel pending depth remaining topo
      = kahnFuel out (fuel + 1) pending depth remaining topo := by
  intro fuel
  induction fuel with
  | zero =>
    intro pending depth remaining topo hm
    have : pending = [] := by
      cases pending with
      | nil => rfl
      | cons a l => simp at hm
    subst this
    simp [kahnFuel]
  | succ fuel ih =>
    intro pending depth remaining topo hm
    cases pending with
    | nil => simp [kahnFuel]
    | cons u rest =>
      show kahnFuel out (fuel + 1) (u :: rest) depth remaining topo
        = kahnFuel out (fuel + 1 + 1) (u :: rest) depth remaining topo
      simp only [kahnFuel]
      apply ih
      have hstep := relaxOut_posCount (depth u) (out u) depth remaining ids (hout u)
      simp only [List.length_append, List.length_cons] at hm ⊢
      omega

/-! Graph relations. -/

/-- Edge relation of an edge-pair list. -/
def edgeRel (E : List (String × String)) (a b : String) : Prop := (a, b) ∈ E

/-- Reachability (reflexive-transitive closure of the edge relation). -/
def Reaches (E : List (String × String)) (u v : String) : Prop :=
  Relation.ReflTransGen (edgeRel E) u v

/-- Absence of directed cycles: no node reaches itself by a nonempty
path.  This is the standard meaning of "the subgraph is a DAG". -/
def Acyclic (E : List (String × String)) : Prop :=
  ∀ x, ¬ Relation.TransGen (edgeRel E) x x

theorem rank_lt_of_transGen {E : List (String × String)} {f : String → Int}
    (hf : ∀ e ∈ E, f e.1 < f e.2) {a b : String}
    (h : Relation.TransGen (edgeRel E) a b) : f a < f b := by
  induction h with
  | single h1 => exact hf _ h1
  | tail _ h2 ih => exact lt_trans ih (hf _ h2)

/-- A graph admitting a strictly edge-increasing ranking has no cycle. -/
theorem acyclic_of_rank (E : List (String × String)) (f : String → Int)
    (hf : ∀ e ∈ E, f e.1 < f e.2) : Acyclic E :=
  fun _ hx => absurd (rank_lt_of_transGen hf hx) (lt_irrefl _)

/-- A nonempty finite set of nodes each of which has an in-neighbour
inside the set contains a cycle (iterate predecessors and apply the
pigeonhole principle). -/
theorem exists_cycle_of_pred (E : List (String × String)) (U : List String) (hne : U ≠ [])
    (hstep : ∀ b ∈ U, ∃ a, a ∈ U ∧ edgeRel E a b) :
    ∃ x, Relation.TransGen (edgeRel E) x x := by
  have hU : ∃ b0, b0 ∈ U := by
    cases U with
    | nil => simp at hne
    | cons a l => exact ⟨a, by simp⟩
  obtain ⟨b0, hb0⟩ := hU
  have hstep' : ∀ b : {x // x ∈ U}, ∃ a : {x // x ∈ U}, edgeRel E a.1 b.1 := by
    intro b
    obtain ⟨a, haU, haR⟩ := hstep b.1 b.2
    exact ⟨⟨a, haU⟩, haR⟩
  choose g hg using hstep'
  have hchain : ∀ (d n : Nat),
      Relation.ReflTransGen (edgeRel E) (g^[n + d] ⟨b0, hb0⟩).1 (g^[n] ⟨b0, hb0⟩).1 := by
    intro d
    induction d with
    | zero =>
      intro n
      rw [Nat.add_zero]
    | succ d ihd =>
      intro n
      have hit : g^[n + (d + 1)] ⟨b0, hb0⟩ = g (g^[n + d] ⟨b0, hb0⟩) :=
        Function.iterate_succ_apply' g (n + d) _
      rw [hit]
      exact Relation.ReflTransGen.trans
        (Relation.ReflTransGen.single (hg _)) (ihd n)
  have hmapsto : ∀ n ∈ Finset.range (U.length + 1),
      (g^[n] ⟨b0, hb0⟩).1 ∈ U.toFinset := by
    intro n _
    rw [List.mem_toFinset]
    exact (g^[n] ⟨b0, hb0⟩).2
  have hcard : U.toFinset.card < (Finset.range (U.length + 1)).card := by
    rw [Finset.card_range]
    have := U.toFinset_card_le
    omega
  obtain ⟨i, _, j, _, hij, heq⟩ :=
    Finset.exists_ne_map_eq_of_card_lt_of_maps_to hcard hmapsto
  have key : ∀ (a b : Nat), a < b →
      (g^[a] ⟨b0, hb0⟩).1 = (g^[b] ⟨b0, hb0⟩).1 →
      ∃ x, Relation.TransGen (edgeRel E) x x := by
    intro a b hab habeq
    obtain ⟨c, hc⟩ : ∃ c, b = a + c + 1 := ⟨b - a - 1, by omega⟩
    have hit : g^[b] ⟨b0, hb0⟩ = g (g^[a + c] ⟨b0, hb0⟩) := by
      rw [hc]
      exact Function.iterate_succ_apply' g (a + c) _
    refine ⟨(g^[b] ⟨b0, hb0⟩).1, ?_⟩
    have hedge : edgeRel E (g^[b] ⟨b0, hb0⟩).1 (g^[a + c] ⟨b0, hb0⟩).1 := by
      rw [hit]; exact hg _
    have hrtg : Relation.ReflTransGen (edgeRel E)
        (g^[a + c] ⟨b0, hb0⟩).1 (g^[a] ⟨b0, hb0⟩).1 := hchain c a
    have htg : Relation.TransGen (edgeRel E)
        (g^[b] ⟨b0, hb0⟩).1 (g^[a] ⟨b0, hb0⟩).1 :=
      Relation.TransGen.head' hedge hrtg
    rw [habeq] at htg
    exact htg
  rcases lt_or_gt_of_ne hij with h | h
  · exact key i j h heq
  · exact key j i h heq.symm

/-! Invariants of the Kahn traversal. -/

theorem mem_outOf (E : List (String × String)) (u t : String) :
    t ∈ outOf E u ↔ (u, t) ∈ E := by
  constructor
  · intro h
    obtain ⟨e, he, h2⟩ := List.mem_map.mp h
    obtain ⟨heE, h1⟩ := List.mem_filter.mp he
    simp at h1
    have : e = (u, t) := by
      obtain ⟨a, b⟩ := e
      simp at h1 h2
      simp [h1, h2]
    exact this ▸ heE
  · intro h
    exact List.mem_map.mpr ⟨(u, t), List.mem_filter.mpr ⟨h, by simp⟩, rfl⟩

theorem mem_inOf (E : List (String × String)) (v s : String) :
    s ∈ inOf E v ↔ (s, v) ∈ E := by
  constructor
  · intro h
    obtain ⟨e, he, h2⟩ := List.mem_map.mp h
    obtain ⟨heE, h1⟩ := List.mem_filter.mp he
    simp at h1
    have : e = (s, v) := by
      obtain ⟨a, b⟩ := e
      simp at h1 h2
      simp [h1, h2]
    exact this ▸ heE
  · intro h
    exact List.mem_map.mpr ⟨(s, v), List.mem_filter.mpr ⟨h, by simp⟩, rfl⟩

theorem cntS_outOf (E : List (String × String)) (u x : String) :
    cntS (outOf E u) x = E.countP (fun e => decide (e.2 = x) && decide (e.1 = u)) := by
  unfold cntS outOf
  rw [List.countP_map, List.countP_filter]
  apply List.countP_congr
  intro e _
  simp [Function.comp]

/-- Number of in-edges of `b` whose source has already been emitted. -/
def processedCountI (E : List (String × String)) (topo : List String) (b : String) : Int :=
  (E.countP (fun e => decide (e.2 = b) && decide (e.1 ∈ topo)) : Nat)

theorem processedCountI_nil (E : List (String × String)) (b : String) :
    processedCountI E [] b = 0 := by
  simp [processedCountI]

theorem processedCountI_le (E : List (String × String)) (topo : List String) (b : String) :
    processedCountI E topo b ≤ inDegI E b := by
  unfold processedCountI inDegI
  have h := List.countP_mono_left
    (l := E) (p := fun e => decide (e.2 = b) && decide (e.1 ∈ topo))
    (q := fun e => decide (e.2 = b)) (by intro a _ ha; simp at ha ⊢; exact ha.1)
  exact_mod_cast h

theorem processedCountI_snoc (E : List (String × String)) (topo : List String)
    (u : String) (hu : u ∉ topo) (b : String) :
    processedCountI E (topo ++ [u]) b
      = processedCountI E topo b + (cntS (outOf E u) b : Int) := by
  unfold processedCountI
  rw [cntS_outOf]
  have hsum : E.countP (fun e => decide (e.2 = b) && decide (e.1 ∈ topo ++ [u]))
      = E.countP (fun e => decide (e.2 = b) && decide (e.1 ∈ topo))
        + E.countP (fun e => decide (e.2 = b) && decide (e.1 = u)) := by
    rw [← countP_disj_add E _ _ ?_]
    · apply List.countP_congr
      intro e _
      by_cases h2 : e.2 = b <;> by_cases h1 : e.1 ∈ topo <;> by_cases hu' : e.1 = u <;>
        simp [h2, h1, hu', List.mem_append]
    · intro e _ h
      obtain ⟨hp, hq⟩ := h
      simp at hp hq
      exact hu (hq.2 ▸ hp.2)
  rw [hsum]
  push_cast
  ring

/-- Loop invariant of the shared Kahn traversal, over the state
(pending queue tail, emitted prefix, depth map, remaining-counter
map). -/
structure KahnInv (E : List (String × String)) (ids : List String)
    (pending topo : List String) (depth remaining : String → Int) : Prop where
  nodupQ : (topo ++ pending).Nodup
  memQ : ∀ x ∈ topo ++ pending, x ∈ ids
  counter : ∀ b, remaining b = inDegI E b - processedCountI E topo b
  zeroQueued : ∀ b ∈ ids, remaining b ≤ 0 → b ∈ topo ++ pending
  queuedZero : ∀ b ∈ topo ++ pending, remaining b ≤ 0
  edgeDepth : ∀ e ∈ E, e.1 ∈ topo → depth e.1 + 1 ≤ depth e.2
  inProcessed : ∀ x ∈ topo ++ pending, ∀ e ∈ E, e.2 = x → e.1 ∈ topo
  depthNonneg : ∀ x, 0 ≤ depth x

theorem kahnStep (E : List (String × String)) (ids : List String)
    (hE : ∀ e ∈ E, e.1 ∈ ids ∧ e.2 ∈ ids)
    {u : String} {rest topo : List String} {depth remaining : String → Int}
    (inv : KahnInv E ids (u :: rest) topo depth remaining) :
    KahnInv E ids (rest ++ (relaxOut (depth u) (outOf E u) depth remaining []).2.2)
      (topo ++ [u])
      (relaxOut (depth u) (outOf E u) depth remaining []).1
      (relaxOut (depth u) (outOf E u) depth remaining []).2.1 := by
  have hdp : ∀ x, (relaxOut (depth u) (outOf E u) depth remaining []).1 x
      = if x ∈ outOf E u then max (depth x) (depth u + 1) else depth x :=
    relaxOut_depth _ _ _ _ _
  have hrp : ∀ x, (relaxOut (depth u) (outOf E u) depth remaining []).2.1 x
      = remaining x - (cntS (outOf E u) x : Int) :=
    relaxOut_remaining _ _ _ _ _
  have hqm : ∀ x, x ∈ (relaxOut (depth u) (outOf E u) depth remaining []).2.2 ↔
      x ∈ outOf E u ∧ 1 ≤ remaining x ∧ remaining x ≤ (cntS (outOf E u) x : Int) := by
    intro x
    rw [relaxOut_pushed_mem]
    simp
  have hqn : (relaxOut (depth u) (outOf E u) depth remaining []).2.2.Nodup :=
    relaxOut_pushed_nodup _ _ _ _ _ (by simp) (by simp)
  set d' := (relaxOut (depth u) (outOf E u) depth remaining []).1
  set r' := (relaxOut (depth u) (outOf E u) depth remaining []).2.1
  set q := (relaxOut (depth u) (outOf E u) depth remaining []).2.2
  have hutopo : u ∉ topo := by
    intro hu
    have h := inv.nodupQ
    rw [List.nodup_append] at h
    exact h.2.2 hu (by simp)
  have hnoSelf : ∀ x ∈ topo ++ u :: rest, x ∉ outOf E u := by
    intro x hx hmem
    have hedge : (u, x) ∈ E := (mem_outOf E u x).mp hmem
    exact hutopo (inv.inProcessed x hx (u, x) hedge rfl)
  have hcnt0 : ∀ x ∈ topo ++ u :: rest, cntS (outOf E u) x = 0 := by
    intro x hx
    by_contra hne
    exact hnoSelf x hx ((cntS_pos_iff_mem _ _).mp (Nat.pos_of_ne_zero hne))
  have hmemArr : ∀ x, x ∈ (topo ++ [u]) ++ (rest ++ q) ↔ x ∈ topo ++ u :: rest ∨ x ∈ q := by
    intro x
    simp [List.mem_append, List.mem_cons]
    tauto
  have hcounterNew : ∀ b, r' b = inDegI E b - processedCountI E (topo ++ [u]) b := by
    intro b
    rw [hrp, inv.counter b, processedCountI_snoc E topo u hutopo b]
    ring
  refine ⟨?_, ?_, hcounterNew, ?_, ?_, ?_, ?_, ?_⟩
  · -- nodupQ
    have hperm : (topo ++ [u]) ++ (rest ++ q) = (topo ++ u :: rest) ++ q := by
      simp
    rw [hperm, List.nodup_append]
    refine ⟨inv.nodupQ, hqn, ?_⟩
    intro a ha haq
    have h1 := inv.queuedZero a ha
    have h2 := (hqm a).mp haq
    omega
  · -- memQ
    intro x hx
    rcases (hmemArr x).mp hx with h | h
    · exact inv.memQ x h
    · have hmem := ((hqm x).mp h).1
      exact (hE _ ((mem_outOf E u x).mp hmem)).2
  · -- zeroQueued
    intro b hb hble
    rw [hrp] at hble
    by_cases hrem : remaining b ≤ 0
    · exact (hmemArr b).mpr (Or.inl (inv.zeroQueued b hb hrem))
    · push_neg at hrem
      have hble' : remaining b ≤ (cntS (outOf E u) b : Int) := by omega
      have hmemb : b ∈ outOf E u := by
        rw [← cntS_pos_iff_mem]
        by_contra hc
        push_neg at hc
        interval_cases hcc : cntS (outOf E u) b
        · simp at hble'
          omega
      exact (hmemArr b).mpr (Or.inr ((hqm b).mpr ⟨hmemb, by omega, hble'⟩))
  · -- queuedZero
    intro x hx
    rcases (hmemArr x).mp hx with h | h
    · have h1 := inv.queuedZero x h
      have h2 : (0 : Int) ≤ (cntS (outOf E u) x : Int) := Int.ofNat_nonneg _
      rw [hrp]
      omega
    · have h2 := (hqm x).mp h
      rw [hrp]
      omega
  · -- edgeDepth
    intro e heE hmem
    obtain ⟨a, b⟩ := e
    simp only at *
    rcases List.mem_append.mp hmem with h | h
    · have hold := inv.edgeDepth (a, b) heE h
      simp only at hold
      have h1 : d' a = depth a := by
        rw [hdp, if_neg (hnoSelf a (by simp [h]))]
      have h2 : depth b ≤ d' b := by
        rw [hdp]
        by_cases hm : b ∈ outOf E u
        · simp [hm]
        · simp [hm]
      omega
    · simp at h
      have hm : b ∈ outOf E u := (mem_outOf E u b).mpr (h ▸ heE)
      have h1 : d' u = depth u := by
        rw [hdp, if_neg (hnoSelf u (by simp))]
      have h2 : d' b = max (depth b) (depth u + 1) := by
        rw [hdp, if_pos hm]
      rw [h, h1, h2]
      exact le_max_right _ _
  · -- inProcessed
    intro x hx e heE he2
    rcases (hmemArr x).mp hx with h | h
    · have := inv.inProcessed x h e heE he2
      simp [List.mem_append, this]
    · have hge : 0 ≤ r' x := by
        rw [hcounterNew]
        have := processedCountI_le E (topo ++ [u]) x
        omega

      have hle : r' x ≤ 0 := by
        rw [hrp]
        have h2 := (hqm x).mp h
        omega
      have h0 : processedCountI E (topo ++ [u]) x = inDegI E x := by
        have := hcounterNew x
        omega
      unfold processedCountI inDegI at h0
      have h0' : E.countP (fun e => decide (e.2 = x))
          ≤ E.countP (fun e => decide (e.2 = x) && decide (e.1 ∈ topo ++ [u])) := by
        exact_mod_cast le_of_eq h0.symm
      have hsat := countP_saturated E
        (fun e => decide (e.2 = x) && decide (e.1 ∈ topo ++ [u]))
        (fun e => decide (e.2 = x))
        (by intro a _ ha; simp at ha ⊢; exact ha.1) h0'
      have hfin := hsat e heE (by simp [he2])
      simp only [Bool.and_eq_true, decide_eq_true_eq] at hfin
      exact hfin.2
  · -- depthNonneg
    intro x
    rw [hdp]
    have h0 := inv.depthNonneg x
    by_cases hm : x ∈ outOf E u
    · simp [hm]
      left
      exact h0
    · simp [hm, h0]

theorem kahnInv_init (E : List (String × String)) (ids : List String)
    (hids : ids.Nodup) :
    KahnInv E ids (ids.filter (fun id => decide (inDegI E id = 0))) [] (fun _ => 0) (inDegI E) := by
  have hdeg : ∀ b, 0 ≤ inDegI E b := fun b => Int.ofNat_nonneg _
  refine ⟨?_, ?_, ?_, ?_, ?_, ?_, ?_, ?_⟩
  · simpa using hids.filter _
  · intro x hx
    simp at hx
    exact hx.1
  · intro b
    rw [processedCountI_nil]
    ring
  · intro b hb hble
    simp only [List.nil_append]
    refine List.mem_filter.mpr ⟨hb, ?_⟩
    have h0 := hdeg b
    simp
    omega
  · intro b hb
    simp at hb
    omega
  · intro e _ hmem
    simp at hmem
  · intro x hx e heE he2
    exfalso
    simp at hx
    have hx0 := hx.2
    have hpos : 0 < E.countP (fun e => decide (e.2 = x)) :=
      List.countP_pos_iff.mpr ⟨e, heE, by simp [he2]⟩
    have : (0 : Int) < inDegI E x := by
      unfold inDegI
      exact_mod_cast hpos
    omega
  · intro x
    exact le_refl 0

theorem kahnFuel_inv (E : List (String × String)) (ids : List String)
    (hE : ∀ e ∈ E, e.1 ∈ ids ∧ e.2 ∈ ids) :
    ∀ (fuel : Nat) (pending topo : List String) (depth remaining : String → Int),
    KahnInv E ids pending topo depth remaining →
    pending.length + posCount ids remaining ≤ fuel →
    KahnInv E ids []
      (kahnFuel (outOf E) fuel pending depth remaining topo).2.2
      (kahnFuel (outOf E) fuel pending depth remaining topo).1
      (kahnFuel (outOf E) fuel pending depth remaining topo).2.1 := by
  intro fuel
  induction fuel with
  | zero =>
    intro pending topo depth remaining inv hm
    have hpend : pending = [] := by
      cases pending with
      | nil => rfl
      | cons a l => simp at hm
    subst hpend
    exact inv
  | succ fuel ih =>
    intro pending topo depth remaining inv hm
    cases pending with
    | nil => exact inv
    | cons u rest =>
      have hstep : kahnFuel (outOf E) (fuel + 1) (u :: rest) depth remaining topo
          = kahnFuel (outOf E) fuel
              (rest ++ (relaxOut (depth u) (outOf E u) depth remaining []).2.2)
              (relaxOut (depth u) (outOf E u) depth remaining []).1
              (relaxOut (depth u) (outOf E u) depth remaining []).2.1
              (topo ++ [u]) := rfl

      rw [hstep]
      apply ih _ _ _ _ (kahnStep E ids hE inv)
      have hbound := relaxOut_posCount (depth u) (outOf E u) depth remaining ids
        (fun t ht => (hE _ ((mem_outOf E u t).mp ht)).2)
      simp only [List.length_append, List.length_cons] at hm ⊢
      omega

/-- With all counters non-negative initially, the fuel supplied by
`kahnRun` equals the initial measure. -/
theorem kahnRun_measure (E : List (String × String)) (ids : List String) :
    (ids.filter (fun id => decide (inDegI E id = 0))).length + posCount ids (inDegI E)
      ≤ ids.length := by
  have hlen : (ids.filter (fun id => decide (inDegI E id = 0))).length
      = ids.countP (fun id => decide (inDegI E id = 0)) :=
    (List.countP_eq_length_filter _ _).symm
  rw [hlen]
  unfold posCount
  rw [← countP_disj_add ids _ _ ?_]
  · exact List.countP_le_length _
  · intro a _ h
    obtain ⟨h1, h2⟩ := h
    simp at h1 h2
    omega

/-- Invariant facts about the completed `kahnRun` state. -/
theorem kahnRun_final (E : List (String × String)) (ids : List String)
    (hids : ids.Nodup) (hE : ∀ e ∈ E, e.1 ∈ ids ∧ e.2 ∈ ids) :
    KahnInv E ids []
      (kahnRun (outOf E) ids (inDegI E)).2.2
      (kahnRun (outOf E) ids (inDegI E)).1
      (kahnRun (outOf E) ids (inDegI E)).2.1 := by
  unfold kahnRun
  exact kahnFuel_inv E ids hE ids.length _ _ _ _ (kahnInv_init E ids hids)
    (kahnRun_measure E ids)

/-- On an acyclic edge set the Kahn traversal emits every node. -/
theorem kahnRun_complete (E : List (String × String)) (ids : List String)
    (hids : ids.Nodup) (hE : ∀ e ∈ E, e.1 ∈ ids ∧ e.2 ∈ ids)
    (hacyc : Acyclic E) :
    ∀ b ∈ ids, b ∈ (kahnRun (outOf E) ids (inDegI E)).2.2 := by
  have hfin := kahnRun_final E ids hids hE
  set topo := (kahnRun (outOf E) ids (inDegI E)).2.2
  set remaining := (kahnRun (outOf E) ids (inDegI E)).2.1
  by_contra hno
  push_neg at hno
  obtain ⟨b0, hb0ids, hb0top⟩ := hno
  set U := ids.filter (fun b => decide (b ∉ topo)) with hU
  have hb0U : b0 ∈ U := List.mem_filter.mpr ⟨hb0ids, by simp [hb0top]⟩
  have hstepU : ∀ b ∈ U, ∃ a, a ∈ U ∧ edgeRel E a b := by
    intro b hbU
    obtain ⟨hbids, hbtop'⟩ := List.mem_filter.mp hbU
    have hbtop : b ∉ topo := by simpa using hbtop'
    have hrem : 0 < remaining b := by
      by_contra hc
      push_neg at hc
      have := hfin.zeroQueued b hbids hc
      simp at this
      exact hbtop this
    have hcnt : processedCountI E topo b < inDegI E b := by
      have := hfin.counter b
      omega
    have hcnt' : E.countP (fun e => decide (e.2 = b) && decide (e.1 ∈ topo))
        < E.countP (fun e => decide (e.2 = b)) := by
      unfold processedCountI inDegI at hcnt
      exact_mod_cast hcnt
    obtain ⟨e, heE, hq, hp⟩ := countP_lt_exists E _ _ hcnt'
    simp at hq
    have hp' : e.1 ∉ topo := by
      intro hmem
      rw [Bool.and_eq_false_iff] at hp
      rcases hp with h | h
      · simp [hq] at h
      · simp [hmem] at h
    refine ⟨e.1, List.mem_filter.mpr ⟨(hE e heE).1, by simp [hp']⟩, ?_⟩
    show (e.1, b) ∈ E
    have : e = (e.1, b) := by
      obtain ⟨s, t⟩ := e
      simp at hq
      simp [hq]
    exact this ▸ heE
  obtain ⟨x, hx⟩ := exists_cycle_of_pred E U (by intro h; rw [h] at hb0U; simp at hb0U) hstepU
  exact hacyc x hx

/-- On an acyclic edge set every edge strictly increases the final
Kahn depth. -/
theorem kahnRun_edgeDepth (E : List (String × String)) (ids : List String)
    (hids : ids.Nodup) (hE : ∀ e ∈ E, e.1 ∈ ids ∧ e.2 ∈ ids)
    (hacyc : Acyclic E) :
    ∀ e ∈ E, (kahnRun (outOf E) ids (inDegI E)).1 e.1 + 1
      ≤ (kahnRun (outOf E) ids (inDegI E)).1 e.2 := by
  intro e heE
  have hfin := kahnRun_final E ids hids hE
  exact hfin.edgeDepth e heE
    (kahnRun_complete E ids hids hE hacyc e.1 (hE e heE).1)

/-- Conversely, when the traversal emits as many nodes as there are
node IDs (the source's DAG check) the edge set is acyclic: the final
depth is a strictly edge-increasing ranking. -/
theorem acyclic_of_complete (E : List (String × String)) (ids : List String)
    (hids : ids.Nodup) (hE : ∀ e ∈ E, e.1 ∈ ids ∧ e.2 ∈ ids)
    (hlen : (kahnRun (outOf E) ids (inDegI E)).2.2.length = ids.length) :
    Acyclic E := by
  have hfin := kahnRun_final E ids hids hE
  set topo := (kahnRun (outOf E) ids (inDegI E)).2.2
  have htopond : topo.Nodup := by
    have := hfin.nodupQ
    simpa using this
  have hsub : ∀ x ∈ topo, x ∈ ids := by
    intro x hx
    exact hfin.memQ x (by simpa using hx)
  have hfs : topo.toFinset = ids.toFinset := by
    apply Finset.eq_of_subset_of_card_le
    · intro x hx
      rw [List.mem_toFinset] at hx ⊢
      exact hsub x hx
    · rw [List.toFinset_card_of_nodup hids, List.toFinset_card_of_nodup htopond, hlen]
  have hall : ∀ b ∈ ids, b ∈ topo := by
    intro b hb
    have h1 : b ∈ ids.toFinset := List.mem_toFinset.mpr hb
    have h2 : b ∈ topo.toFinset := by rw [hfs]; exact h1
    exact List.mem_toFinset.mp h2
  apply acyclic_of_rank E (kahnRun (outOf E) ids (inDegI E)).1
  intro e heE
  have := hfin.edgeDepth e heE (hall e.1 (hE e heE).1)
  omega

/-! Facts connecting the algorithm embeddings to the Kahn lemmas. -/

theorem validPairs_mem (ids : List String) (links : List SkillLink) :
    ∀ e ∈ validPairs ids links, e.1 ∈ ids ∧ e.2 ∈ ids := by
  intro e he
  unfold validPairs linkPairs at he
  obtain ⟨l, hl, rfl⟩ := List.mem_map.mp he
  have h := (List.mem_filter.mp hl).2
  simp at h
  exact h

theorem dedupValidLinks_mem (ids : List String) :
    ∀ (links : List SkillLink) (seen : List String),
    ∀ l ∈ dedupValidLinks ids links seen, l.source ∈ ids ∧ l.target ∈ ids := by
  intro links
  induction links with
  | nil => intro seen l hl; simp [dedupValidLinks] at hl
  | cons l0 rest ih =>
    intro seen l hl
    unfold dedupValidLinks at hl
    by_cases hv : l0.source ∈ ids ∧ l0.target ∈ ids
    · rw [if_pos hv] at hl
      by_cases hk : linkKey l0 ∈ seen
      · rw [if_pos hk] at hl
        exact ih seen l hl
      · rw [if_neg hk] at hl
        rcases List.mem_cons.mp hl with h | h
        · exact h ▸ hv
        · exact ih _ l h
    · rw [if_neg hv] at hl
      exact ih seen l hl

theorem kahnFuel_depth_nonneg (out : String → List String) :
    ∀ (fuel : Nat) (pending : List String) (depth remaining : String → Int)
      (topo : List String),
    (∀ x, 0 ≤ depth x) →
    ∀ x, 0 ≤ (kahnFuel out fuel pending depth remaining topo).1 x := by
  intro fuel
  induction fuel with
  | zero => intro pending depth remaining topo h x; exact h x
  | succ fuel ih =>
    intro pending depth remaining topo h x
    cases pending with
    | nil => exact h x
    | cons u rest =>
      have hstep : kahnFuel out (fuel + 1) (u :: rest) depth remaining topo
          = kahnFuel out fuel
              (rest ++ (relaxOut (depth u) (out u) depth remaining []).2.2)
              (relaxOut (depth u) (out u) depth remaining []).1
              (relaxOut (depth u) (out u) depth remaining []).2.1
              (topo ++ [u]) := rfl
      rw [hstep]
      apply ih
      intro y
      rw [relaxOut_depth]
      by_cases hm : y ∈ out u
      · rw [if_pos hm]
        exact le_trans (h y) (le_max_left _ _)
      · rw [if_neg hm]
        exact h y

theorem foldl_max_ge (f : String → Int) :
    ∀ (ps : List String) (init : Int), init ≤ ps.foldl (fun m q => max m (f q)) init := by
  intro ps
  induction ps with
  | nil => intro init; exact le_refl _
  | cons p ps ih =>
    intro init
    calc init ≤ max init (f p) := le_max_left _ _
    _ ≤ _ := ih _

theorem fallbackDepth_nonneg (incoming : String → List String) :
    ∀ (l : List String) (depth : String → Int),
    (∀ x, 0 ≤ depth x) → ∀ x, 0 ≤ fallbackDepth incoming l depth x := by
  intro l
  induction l with
  | nil => intro depth h x; exact h x
  | cons id rest ih =>
    intro depth h x
    cases hin : incoming id with
    | nil =>
      have hstep : fallbackDepth incoming (id :: rest) depth
          = fallbackDepth incoming rest depth := by
        simp only [fallbackDepth]
        rw [hin]
      rw [hstep]
      exact ih depth h x
    | cons p ps =>
      have hstep : fallbackDepth incoming (id :: rest) depth
          = fallbackDepth incoming rest
              (fun y => if y = id
                then ps.foldl (fun m q => max m (depth q)) (depth p) + 1
                else depth y) := by
        simp only [fallbackDepth]
        rw [hin]
      rw [hstep]
      apply ih
      intro y
      by_cases hy : y = id
      · rw [if_pos hy]
        have h1 := foldl_max_ge depth ps (depth p)
        have h2 := h p
        omega
      · rw [if_neg hy]
        exact h y

theorem calculateProgressionMetrics_depthById (nodes : List SkillNode) (links : List SkillLink) :
    (calculateProgressionMetrics nodes links).depthById
      = fallbackDepth (inOf (validPairs (nodes.map (fun n => n.id)) links))
          ((nodes.map (fun n => n.id)).filter
            (fun id => decide (0 < (kahnRun
              (outOf (validPairs (nodes.map (fun n => n.id)) links))
              (nodes.map (fun n => n.id))
              (inDegI (validPairs (nodes.map (fun n => n.id)) links))).2.1 id)))
          (kahnRun (outOf (validPairs (nodes.map (fun n => n.id)) links))
            (nodes.map (fun n => n.id))
            (inDegI (validPairs (nodes.map (fun n => n.id)) links))).1 := rfl

/-- C7: after `calculateProgressionMetrics` every depth is a
non-negative integer, and on node lists with distinct IDs (the data
model requires IDs to be unique) whose induced edge set is acyclic,
every induced edge `(u,v)` satisfies `depth v ≥ depth u + 1`. -/
theorem claim_depth_invariant (nodes : List SkillNode) (links : List SkillLink) :
    (∀ id, 0 ≤ (calculateProgressionMetrics nodes links).depthById id) ∧
    ((nodes.map (fun n => n.id)).Nodup →
      Acyclic (validPairs (nodes.map (fun n => n.id)) links) →
      ∀ e ∈ validPairs (nodes.map (fun n => n.id)) links,
        (calculateProgressionMetrics nodes links).depthById e.1 + 1
          ≤ (calculateProgressionMetrics nodes links).depthById e.2) := by
  rw [calculateProgressionMetrics_depthById]
  constructor
  · apply fallbackDepth_nonneg
    unfold kahnRun
    apply kahnFuel_depth_nonneg
    intro x
    exact le_refl 0
  · intro hnd hacyc
    have hE := validPairs_mem (nodes.map (fun n => n.id)) links
    have hcomp := kahnRun_complete _ _ hnd hE hacyc
    have hfin := kahnRun_final _ _ hnd hE
    have hunres : (nodes.map (fun n => n.id)).filter
        (fun id => decide (0 < (kahnRun
          (outOf (validPairs (nodes.map (fun n => n.id)) links))
          (nodes.map (fun n => n.id))
          (inDegI (validPairs (nodes.map (fun n => n.id)) links))).2.1 id)) = [] := by
      rw [List.filter_eq_nil_iff]
      intro a ha
      have hmem := hcomp a ha
      have hle := hfin.queuedZero a (by simpa using hmem)
      simp
      omega
    rw [hunres]
    intro e heE
    show (kahnRun _ _ _).1 e.1 + 1 ≤ (kahnRun _ _ _).1 e.2
    exact kahnRun_edgeDepth _ _ hnd hE hacyc e heE

/-- Witness for `claim_depth_invariant` on the one-edge DAG
`u → v`. -/
theorem claim_depth_invariant_witness :
    (0 ≤ (calculateProgressionMetrics [⟨"u"⟩, ⟨"v"⟩] [⟨"u", "v"⟩]).depthById "u") ∧
    ((calculateProgressionMetrics [⟨"u"⟩, ⟨"v"⟩] [⟨"u", "v"⟩]).depthById "u" + 1
      ≤ (calculateProgressionMetrics [⟨"u"⟩, ⟨"v"⟩] [⟨"u", "v"⟩]).depthById "v") := by
  have h := claim_depth_invariant [⟨"u"⟩, ⟨"v"⟩] [⟨"u", "v"⟩]
  refine ⟨h.1 "u", ?_⟩
  have h2 := h.2 (by decide)
    (acyclic_of_rank _ (fun s => if s = "v" then 1 else 0) (by decide))
    ("u", "v") (by decide)
  exact h2

/-- C4 counterexample: on the two-node cycle `A → B, B → A` the
fallback pass assigns depth 2 to `B` (the claim says both nodes get
depth 0 or 1): `A` is estimated first as `1 + depth(B) = 1`, then `B`
reads the already-updated depth of `A` and gets `1 + 1 = 2`. -/
theorem claim_cycle_depth_counterexample :
    (calculateProgressionMetrics [⟨"A"⟩, ⟨"B"⟩] [⟨"A", "B"⟩, ⟨"B", "A"⟩]).depthById "B" = 2
    ∧ ¬((calculateProgressionMetrics [⟨"A"⟩, ⟨"B"⟩] [⟨"A", "B"⟩, ⟨"B", "A"⟩]).depthById "B" = 0
        ∨ (calculateProgressionMetrics [⟨"A"⟩, ⟨"B"⟩] [⟨"A", "B"⟩, ⟨"B", "A"⟩]).depthById "B" = 1) := by
  constructor
  · decide
  · decide

/-- C4 amended: the depth computation on the two-node cycle terminates
(the embedding is total and evaluates) and assigns the depths produced
by the sequential fallback rule — cycle members are processed in node
order and each receives `1 + max` over the current depths of its direct
prerequisites, so `A ↦ 1` and `B ↦ 2`. -/
theorem claim_cycle_depth_amended :
    (calculateProgressionMetrics [⟨"A"⟩, ⟨"B"⟩] [⟨"A", "B"⟩, ⟨"B", "A"⟩]).depthById "A" = 1
    ∧ (calculateProgressionMetrics [⟨"A"⟩, ⟨"B"⟩] [⟨"A", "B"⟩, ⟨"B", "A"⟩]).depthById "B" = 2 := by
  constructor
  · decide
  · decide

theorem transGen_two_cycle (E : List (String × String)) (a b : String)
    (h1 : (a, b) ∈ E) (h2 : (b, a) ∈ E) :
    Relation.TransGen (edgeRel E) a a :=
  Relation.TransGen.head h1 (Relation.TransGen.single h2)

theorem transitiveReduceCore_skip (nodes : List SkillNode) (links : List SkillLink)
    (h : (kahnRun (outOf (linkPairs (dedupValidLinks (nodes.map (fun n => n.id)) links [])))
          (nodes.map (fun n => n.id))
          (inDegI (linkPairs (dedupValidLinks (nodes.map (fun n => n.id)) links [])))).2.2.length
        ≠ (nodes.map (fun n => n.id)).length) :
    transitiveReduceCore nodes links = dedupValidLinks (nodes.map (fun n => n.id)) links [] := by
  simp only [transitiveReduceCore]
  rw [if_neg h]

/-- C2 amended: on a node list with distinct IDs (as the data model
requires), if the deduplicated induced edge set contains a cycle then
`transitiveReduceLinks` returns the deduplicated edge list unchanged
(first occurrence per `source=>target` key, input order, nothing
removed). -/
theorem claim_cyclic_reduce (nodes : List SkillNode) (links : List SkillLink)
    (hnd : (nodes.map (fun n => n.id)).Nodup)
    (hcyc : ∃ x, Relation.TransGen
      (edgeRel (linkPairs (dedupValidLinks (nodes.map (fun n => n.id)) links []))) x x) :
    transitiveReduceLinks (some nodes) (some links)
      = dedupValidLinks (nodes.map (fun n => n.id)) links [] := by
  obtain ⟨x, hx⟩ := hcyc
  have hedge : ∃ e, e ∈ linkPairs (dedupValidLinks (nodes.map (fun n => n.id)) links []) := by
    cases hx with
    | single h => exact ⟨_, h⟩
    | tail _ h2 => exact ⟨_, h2⟩
  obtain ⟨e, he⟩ := hedge
  have hl0 : ∃ l0, l0 ∈ dedupValidLinks (nodes.map (fun n => n.id)) links [] := by
    unfold linkPairs at he
    obtain ⟨l0, hl0, _⟩ := List.mem_map.mp he
    exact ⟨l0, hl0⟩
  obtain ⟨l0, hl0⟩ := hl0
  have hval := dedupValidLinks_mem (nodes.map (fun n => n.id)) links [] l0 hl0
  have hnodes : nodes ≠ [] := by
    intro h
    rw [h] at hval
    simp at hval
  have hlinks : links ≠ [] := by
    intro h
    rw [h] at hl0
    simp [dedupValidLinks] at hl0
  have hguard : transitiveReduceLinks (some nodes) (some links)
      = transitiveReduceCore nodes links := by
    simp [transitiveReduceLinks, hnodes, hlinks]
  rw [hguard]
  apply transitiveReduceCore_skip
  intro hlen
  have hE : ∀ e ∈ linkPairs (dedupValidLinks (nodes.map (fun n => n.id)) links []),
      e.1 ∈ nodes.map (fun n => n.id) ∧ e.2 ∈ nodes.map (fun n => n.id) := by
    intro e' he'
    unfold linkPairs at he'
    obtain ⟨l1, hl1, rfl⟩ := List.mem_map.mp he'
    exact dedupValidLinks_mem _ links [] l1 hl1
  exact acyclic_of_complete _ _ hnd hE hlen x hx

/-- Witness for `claim_cyclic_reduce` on the two-node cycle
`A → B, B → A` together with a third reachable node. -/
theorem claim_cyclic_reduce_witness :
    transitiveReduceLinks (some [⟨"A"⟩, ⟨"B"⟩]) (some [⟨"A", "B"⟩, ⟨"B", "A"⟩])
      = dedupValidLinks (([⟨"A"⟩, ⟨"B"⟩] : List SkillNode).map (fun n => n.id))
          [⟨"A", "B"⟩, ⟨"B", "A"⟩] [] := by
  have h := claim_cyclic_reduce [⟨"A"⟩, ⟨"B"⟩] [⟨"A", "B"⟩, ⟨"B", "A"⟩] (by decide)
    ⟨"A", transGen_two_cycle _ "A" "B" (by decide) (by decide)⟩
  exact h

/-- C2 counterexample: with a duplicated node ID the seed queue holds
the duplicate twice, its out-edges are relaxed twice, the cycle
`C → D → C` is nevertheless emitted in full by the sort (4 nodes
emitted = 4 node-list entries), and the reducer then removes the edges
`A→C` and `A→D` — so the deduplicated edges are not returned unchanged
although the subgraph contains a cycle. -/
theorem claim_cyclic_reduce_counterexample :
    (∃ x, Relation.TransGen
        (edgeRel (linkPairs (dedupValidLinks
          (([⟨"A"⟩, ⟨"A"⟩, ⟨"C"⟩, ⟨"D"⟩] : List SkillNode).map (fun n => n.id))
          [⟨"A", "C"⟩, ⟨"A", "D"⟩, ⟨"C", "D"⟩, ⟨"D", "C"⟩] []))) x x)
    ∧ transitiveReduceLinks (some [⟨"A"⟩, ⟨"A"⟩, ⟨"C"⟩, ⟨"D"⟩])
        (some [⟨"A", "C"⟩, ⟨"A", "D"⟩, ⟨"C", "D"⟩, ⟨"D", "C"⟩])
      ≠ dedupValidLinks (([⟨"A"⟩, ⟨"A"⟩, ⟨"C"⟩, ⟨"D"⟩] : List SkillNode).map (fun n => n.id))
          [⟨"A", "C"⟩, ⟨"A", "D"⟩, ⟨"C", "D"⟩, ⟨"D", "C"⟩] [] := by
  constructor
  · exact ⟨"C", transGen_two_cycle _ "C" "D" (by decide) (by decide)⟩
  · decide

/-- C10: with an empty (or null/undefined) node list or link list,
`transitiveReduceLinks` returns the input link list as-is (empty list
when the link list is null/undefined): no deduplication, no
filtering. -/
theorem claim_empty_input_guard (nodes : Option (List SkillNode))
    (links : Option (List SkillLink))
    (h : nodes = none ∨ nodes = some [] ∨ links = none ∨ links = some []) :
    transitiveReduceLinks nodes links = links.getD [] := by
  rcases h with h | h | h | h
  · subst h
    cases links with
    | none => rfl
    | some ls => rfl
  · subst h
    cases links with
    | none => rfl
    | some ls => simp [transitiveReduceLinks]
  · subst h
    cases nodes with
    | none => rfl
    | some ns => rfl
  · subst h
    cases nodes with
    | none => rfl
    | some ns => simp [transitiveReduceLinks]

/-- Witness for `claim_empty_input_guard`: empty node list, one
link. -/
theorem claim_empty_input_guard_witness :
    transitiveReduceLinks (some []) (some [⟨"x", "y"⟩]) = [⟨"x", "y"⟩] :=
  claim_empty_input_guard (some []) (some [⟨"x", "y"⟩]) (Or.inr (Or.inl rfl))

theorem expandSkillToken_range_none (token : String) (p1 : List Char) (start stop : Nat)
    (hemp : ¬ normalizeTokenText token = "")
    (hparse : rangeParse (normalizeTokenText token).data = some (p1, start, none, stop)) :
    expandSkillToken token =
      if start ≤ stop then
        (List.range (stop - start + 1)).map
          (fun i => String.mk (upperChars p1) ++ " " ++ toString (start + i))
      else
        (List.range (start - stop + 1)).map
          (fun i => String.mk (upperChars p1) ++ " " ++ toString (start - i)) := by
  unfold expandSkillToken
  rw [if_neg hemp, hparse]
  show (if upperChars p1 = upperChars p1 then
      (if start ≤ stop then
        (List.range (stop - start + 1)).map
          (fun i => String.mk (upperChars p1) ++ " " ++ toString (start + i))
      else
        (List.range (start - stop + 1)).map
          (fun i => String.mk (upperChars p1) ++ " " ++ toString (start - i)))
    else expandCode (normalizeTokenText token)) = _
  rw [if_pos rfl]

theorem expandSkillToken_range_some (token : String) (p1 p2 : List Char) (start stop : Nat)
    (hemp : ¬ normalizeTokenText token = "")
    (hparse : rangeParse (normalizeTokenText token).data = some (p1, start, some p2, stop))
    (hpfx : upperChars p2 = upperChars p1) :
    expandSkillToken token =
      if start ≤ stop then
        (List.range (stop - start + 1)).map
          (fun i => String.mk (upperChars p1) ++ " " ++ toString (start + i))
      else
        (List.range (start - stop + 1)).map
          (fun i => String.mk (upperChars p1) ++ " " ++ toString (start - i)) := by
  unfold expandSkillToken
  rw [if_neg hemp, hparse]
  show (if upperChars p1 = upperChars p2 then
      (if start ≤ stop then
        (List.range (stop - start + 1)).map
          (fun i => String.mk (upperChars p1) ++ " " ++ toString (start + i))
      else
        (List.range (start - stop + 1)).map
          (fun i => String.mk (upperChars p1) ++ " " ++ toString (start - i)))
    else expandCode (normalizeTokenText token)) = _
  rw [if_pos hpfx.symm]

/-! Properties of the float64 layer.  Below `2 ^ 53` rounding is the
identity and printing is the exact decimal, so on captures inside that
range (and spans below the `Array.from` limit) the float64 expander
agrees with the integer-exact enumeration; the claim theorem for C6
states exactly that, and its counterexample exhibits the rounding at
the first 16-digit capture past `2 ^ 53`. -/

theorem F64_INF_eq : F64_INF = 2 ^ 1024 - 2 ^ 970 := by norm_num [F64_INF]

theorem roundF64_small (n : Nat) (h : n < 2 ^ 53) : roundF64 n = n := by
  simp only [roundF64]
  rw [if_pos h]

theorem f64ExpGo_zero (fuel m : Nat) (h : m < 2 ^ 53) : f64ExpGo fuel m = 0 := by
  cases fuel with
  | zero => rfl
  | succ f => simp only [f64ExpGo]; rw [if_pos h]

theorem f64ExpGo_div_ge (fuel : Nat) :
    ∀ m : Nat, 2 ^ 53 ≤ m → 2 ^ 52 ≤ m / 2 ^ f64ExpGo fuel m := by
  induction fuel with
  | zero =>
    intro m hm
    simp only [f64ExpGo, pow_zero, Nat.div_one]
    exact le_trans (by norm_num) hm
  | succ f ih =>
    intro m hm
    have hnot : ¬ m < 2 ^ 53 := not_lt.mpr hm
    simp only [f64ExpGo]
    rw [if_neg hnot]
    have hdd : m / 2 ^ (f64ExpGo f (m / 2) + 1) = (m / 2) / 2 ^ f64ExpGo f (m / 2) := by
      rw [pow_succ, Nat.mul_comm, ← Nat.div_div_eq_div_mul]
    rw [hdd]
    by_cases h2 : 2 ^ 53 ≤ m / 2
    · exact ih (m / 2) h2
    · rw [f64ExpGo_zero f (m / 2) (not_le.mp h2)]
      simp only [pow_zero, Nat.div_one]
      have h3 : 2 ^ 53 / 2 ≤ m / 2 := Nat.div_le_div_right hm
      have h4 : (2 : Nat) ^ 53 / 2 = 2 ^ 52 := by norm_num
      rw [h4] at h3
      exact h3

theorem f64ExpGo_pos (fuel m : Nat) (hf : 0 < fuel) (hm : 2 ^ 53 ≤ m) :
    1 ≤ f64ExpGo fuel m := by
  cases fuel with
  | zero => exact absurd hf (by norm_num)
  | succ f =>
    simp only [f64ExpGo]
    rw [if_neg (not_lt.mpr hm)]
    exact Nat.succ_le_succ (Nat.zero_le _)

theorem roundF64_big (n : Nat) (h : 2 ^ 53 ≤ n) : 2 ^ 53 ≤ roundF64 n := by
  have hq : 2 ^ 52 ≤ n / 2 ^ f64ExpGo 1100 n := f64ExpGo_div_ge 1100 n h
  have he1 : 1 ≤ f64ExpGo 1100 n := f64ExpGo_pos 1100 n (by norm_num) h
  simp only [roundF64]
  rw [if_neg (not_lt.mpr h)]
  have hbase : 2 ^ 53 ≤ (n / 2 ^ f64ExpGo 1100 n) * 2 ^ f64ExpGo 1100 n := by
    calc (2 : Nat) ^ 53 = 2 ^ 52 * 2 ^ 1 := by norm_num
    _ ≤ (n / 2 ^ f64ExpGo 1100 n) * 2 ^ f64ExpGo 1100 n :=
        Nat.mul_le_mul hq (Nat.pow_le_pow_right (by norm_num) he1)
  refine le_trans hbase (Nat.mul_le_mul_right _ ?_)
  split
  · exact Nat.le_succ _
  · exact Nat.le_refl _

theorem jsParseInt_small (n : Nat) (h : n < 2 ^ 53) : jsParseInt n = JsNum.num n := by
  have hlt : n < F64_INF := lt_trans h (by rw [F64_INF_eq]; norm_num)
  simp only [jsParseInt]
  rw [if_neg (not_le.mpr hlt), roundF64_small n h]

theorem roundTrips_eq (v c : Nat) (h : roundTrips v c = true) : roundF64 c = v := by
  simp only [roundTrips, Bool.and_eq_true, decide_eq_true_eq] at h
  exact h.2

theorem chooseCloser_or (b r c1 c2 : Nat) :
    chooseCloser b r c1 c2 = c1 ∨ chooseCloser b r c1 c2 = c2 := by
  unfold chooseCloser
  split
  · exact Or.inl rfl
  split
  · exact Or.inr rfl
  split
  · exact Or.inl rfl
  · exact Or.inr rfl

theorem roundTrips_small (v c : Nat) (hv : v < 2 ^ 53) (h : roundTrips v c = true) :
    c = v := by
  have hr := roundTrips_eq v c h
  by_cases hc : c < 2 ^ 53
  · rw [roundF64_small c hc] at hr
    exact hr
  · exfalso
    have hb := roundF64_big c (not_lt.mp hc)
    rw [hr] at hb
    exact absurd hb (not_le.mpr hv)

theorem pickCand_small (v b c : Nat) (hv : v < 2 ^ 53) (h : pickCand v b = some c) :
    c = v := by
  simp only [pickCand] at h
  split at h
  · split at h
    · rename_i h1 h2
      rw [Option.some.injEq] at h
      obtain hc | hc := chooseCloser_or b (v % b) (v / b * b) ((v / b + 1) * b)
      · rw [← h, hc]; exact roundTrips_small v _ hv h1
      · rw [← h, hc]; exact roundTrips_small v _ hv h2
    · rename_i h1 _
      rw [Option.some.injEq] at h
      rw [← h]; exact roundTrips_small v _ hv h1
  · split at h
    · rename_i _ h2
      rw [Option.some.injEq] at h
      rw [← h]; exact roundTrips_small v _ hv h2
    · exact absurd h (by simp)

theorem shortestDec_small (v : Nat) (hv : v < 2 ^ 53) :
    ∀ bs : List Nat, shortestDec v bs = v := by
  intro bs
  induction bs with
  | nil => rfl
  | cons b bs ih =>
    simp only [shortestDec]
    cases hp : pickCand v b with
    | none => exact ih
    | some c => exact pickCand_small v b c hv hp

theorem numDigitsGo_le (fuel : Nat) :
    ∀ k m : Nat, m < 10 ^ k → 1 ≤ k → k ≤ fuel → numDigitsGo fuel m ≤ k := by
  induction fuel with
  | zero => intro k m _ _ _; simp [numDigitsGo]
  | succ f ih =>
    intro k m hm hk hkf
    simp only [numDigitsGo]
    split
    · exact hk
    · rename_i h10
      have hk2 : 2 ≤ k := by
        rcases Nat.lt_or_ge k 2 with hlt | hge
        · exfalso
          have hk1 : k = 1 := by omega
          subst hk1
          norm_num at hm
          exact h10 hm
        · exact hge
      have hdiv : m / 10 < 10 ^ (k - 1) := by
        have hpow : 10 ^ k = 10 ^ (k - 1) * 10 := by
          rw [← pow_succ]
          congr 1
          omega
        rw [Nat.div_lt_iff_lt_mul (by norm_num)]
        rw [← hpow]
        exact hm
      have := ih (k - 1) (m / 10) hdiv (by omega) (by omega)
      omega

theorem jsIntToString_small (v : Nat) (hv : v < 2 ^ 53) : jsIntToString v = Nat.repr v := by
  by_cases h0 : v = 0
  · subst h0; rfl
  · simp only [jsIntToString]
    rw [if_neg h0]
    rw [shortestDec_small v hv]
    have hd : numDigits v ≤ 16 :=
      numDigitsGo_le 1200 16 v (lt_trans hv (by norm_num)) (by norm_num) (by norm_num)
    simp only [jsFormat]
    rw [if_pos (le_trans hd (by norm_num))]

theorem jsRange_exact (sp : List Char) (start stop : Nat) (hs : start < 2 ^ 53)
    (he : stop < 2 ^ 53) (hspan : max start stop - min start stop + 1 < 2 ^ 32) :
    jsRange sp start stop = some
      (if start ≤ stop then
        (List.range (stop - start + 1)).map
          (fun i => String.mk sp ++ " " ++ toString (start + i))
      else
        (List.range (start - stop + 1)).map
          (fun i => String.mk sp ++ " " ++ toString (start - i))) := by
  have h32 : max start stop - min start stop < 2 ^ 32 := Nat.lt_of_succ_lt hspan
  have h53a : max start stop - min start stop < 2 ^ 53 := lt_trans h32 (by norm_num)
  have h53c : max start stop - min start stop + 1 < 2 ^ 53 := lt_trans hspan (by norm_num)
  unfold jsRange
  rw [jsParseInt_small start hs, jsParseInt_small stop he]
  show jsRangeList sp start stop = _
  simp only [jsRangeList]
  rw [roundF64_small (max start stop - min start stop) h53a]
  rw [roundF64_small (max start stop - min start stop + 1) h53c]
  rw [if_neg (not_le.mpr hspan)]
  by_cases hle : start ≤ stop
  · rw [if_pos hle, max_eq_right hle, min_eq_left hle]
    congr 1
    apply List.map_congr_left
    intro i hi
    have hi2 : i < stop - start + 1 := List.mem_range.mp hi
    have hiv : start + i ≤ stop := by omega
    have hv : start + i < 2 ^ 53 := lt_of_le_of_lt hiv he
    rw [if_pos hle, roundF64_small (start + i) hv, jsIntToString_small (start + i) hv]
    rfl
  · have hlt : stop < start := not_le.mp hle
    rw [if_neg hle, max_eq_left (le_of_lt hlt), min_eq_right (le_of_lt hlt)]
    congr 1
    apply List.map_congr_left
    intro i hi
    have hv : start - i < 2 ^ 53 := lt_of_le_of_lt (Nat.sub_le _ _) hs
    rw [if_neg hle, roundF64_small (start - i) hv, jsIntToString_small (start - i) hv]
    rfl

theorem expandSkillTokenJs_range (token : String) (p1 : List Char) (start : Nat)
    (p2opt : Option (List Char)) (stop : Nat)
    (hparse : rangeParse (normalizeTokenText token).data = some (p1, start, p2opt, stop))
    (hpfx : ∀ p2 ∈ p2opt, upperChars p2 = upperChars p1)
    (hs : start < 2 ^ 53) (he : stop < 2 ^ 53)
    (hspan : max start stop - min start stop + 1 < 2 ^ 32) :
    expandSkillTokenJs token = some
      (if start ≤ stop then
        (List.range (stop - start + 1)).map
          (fun i => String.mk (upperChars p1) ++ " " ++ toString (start + i))
      else
        (List.range (start - stop + 1)).map
          (fun i => String.mk (upperChars p1) ++ " " ++ toString (start - i))) := by
  have hemp : ¬ normalizeTokenText token = "" := by
    intro h
    rw [h] at hparse
    exact Option.noConfusion hparse
  unfold expandSkillTokenJs
  rw [if_neg hemp, hparse]
  cases p2opt with
  | none =>
    show (if upperChars p1 = upperChars p1 then jsRange (upperChars p1) start stop
      else some (expandCodeJs (normalizeTokenText token))) = _
    rw [if_pos rfl]
    exact jsRange_exact (upperChars p1) start stop hs he hspan
  | some p2 =>
    show (if upperChars p1 = upperChars p2 then jsRange (upperChars p1) start stop
      else some (expandCodeJs (normalizeTokenText token))) = _
    rw [if_pos (hpfx p2 rfl).symm]
    exact jsRange_exact (upperChars p1) start stop hs he hspan

/-- C6 (amended): under full float64 semantics the two concrete range
expansions of the spec hold, a span reaching `2 ^ 32` raises the
`Array.from` `RangeError`, and in general a range token `PREFIX N–M`
(with an optional second prefix accepted only when it uppercases to the
first) whose numeric captures stay below `2 ^ 53` and whose span stays
below `2 ^ 32` expands to every `PREFIX k` for `k` between `N` and `M`
inclusive, ascending or descending according to the direction of the
range. -/
theorem claim_range_expansion :
    (expandSkillTokenJs "ADT 2-5" = some ["ADT 2", "ADT 3", "ADT 4", "ADT 5"]
      ∧ expandSkillTokenJs "ADT 5-2" = some ["ADT 5", "ADT 4", "ADT 3", "ADT 2"]
      ∧ expandSkillTokenJs "ADT 0-4294967295" = none)
    ∧ ∀ (token : String) (p1 : List Char) (start : Nat) (p2opt : Option (List Char)) (stop : Nat),
      rangeParse (normalizeTokenText token).data = some (p1, start, p2opt, stop) →
      (∀ p2 ∈ p2opt, upperChars p2 = upperChars p1) →
      start < 2 ^ 53 → stop < 2 ^ 53 →
      max start stop - min start stop + 1 < 2 ^ 32 →
      expandSkillTokenJs token = some
        (if start ≤ stop then
          (List.range (stop - start + 1)).map
            (fun i => String.mk (upperChars p1) ++ " " ++ toString (start + i))
        else
          (List.range (start - stop + 1)).map
            (fun i => String.mk (upperChars p1) ++ " " ++ toString (start - i))) := by
  refine ⟨⟨by decide, by decide, by decide⟩, ?_⟩
  intro token p1 start p2opt stop hparse hpfx hs he hspan
  exact expandSkillTokenJs_range token p1 start p2opt stop hparse hpfx hs he hspan

/-- Witness for `claim_range_expansion` at the range token "ADT 2-5",
discharging the parse and the two capture bounds and the span bound
concretely. -/
theorem claim_range_expansion_witness :
    rangeParse (normalizeTokenText "ADT 2-5").data = some (['A', 'D', 'T'], 2, none, 5)
    ∧ (2 : Nat) < 2 ^ 53 ∧ (5 : Nat) < 2 ^ 53
    ∧ max 2 5 - min 2 5 + 1 < 2 ^ 32
    ∧ expandSkillTokenJs "ADT 2-5" = some ["ADT 2", "ADT 3", "ADT 4", "ADT 5"] := by
  refine ⟨by decide, by norm_num, by norm_num, by norm_num, ?_⟩
  have h := claim_range_expansion.2 "ADT 2-5" ['A', 'D', 'T'] 2 none 5 (by decide)
    (by intro p2 hp2; simp at hp2) (by norm_num) (by norm_num) (by norm_num)
  rw [h]
  decide

/-- C6 counterexample: the token "ADT 9007199254740993-9007199254740993"
matches the range shape with start = stop = 9007199254740993, so the
claimed expansion law demands the single element "ADT 9007199254740993";
`parseInt` returns a float64 and rounds the 16-digit capture (one above
`2 ^ 53`) to the nearest even-significand double `2 ^ 53`, so the
program expands the token to ["ADT 9007199254740992"] instead. -/
theorem claim_range_expansion_counterexample :
    rangeParse (normalizeTokenText "ADT 9007199254740993-9007199254740993").data
        = some (['A', 'D', 'T'], 9007199254740993, none, 9007199254740993)
    ∧ expandSkillTokenJs "ADT 9007199254740993-9007199254740993"
        = some ["ADT 9007199254740992"]
    ∧ ("ADT 9007199254740992" : String) ≠ "ADT 9007199254740993" := by
  refine ⟨by decide, by decide, by decide⟩

/-! Pointwise characterization of `computeProgressMetrics`.  Each
per-node output value depends only on the node's ID, the group map and
the progress snapshot; the following functions compute them directly
and the lemmas show the association lists built by the loop agree with
them. -/

def nodeStatus (S : String → Option String) (id : String) : ProgressStatus :=
  normalizeProgressStatus (S id)

def nodeGroups (g : List (String × List (List String))) (id : String) : List (List String) :=
  (assocGet g id).getD []

def nodeTotal (g : List (String × List (List String))) (id : String) : Nat :=
  (nodeGroups g id).length

def nodeSatisfied (g : List (String × List (List String))) (S : String → Option String)
    (id : String) : Nat :=
  (nodeGroups g id).countP (groupSatisfied S)

def nodeReadiness (g : List (String × List (List String))) (S : String → Option String)
    (id : String) : ℚ :=
  if nodeTotal g id = 0 then 1 else (nodeSatisfied g S id : ℚ) / (nodeTotal g id : ℚ)

/-- The ready-now IDs contributed by a node list. -/
def readyFilter (g : List (String × List (List String))) (S : String → Option String)
    (nodes : List SkillNode) : List String :=
  (nodes.filter (fun n => decide (nodeStatus S n.id ≠ ProgressStatus.mastered
    ∧ (1 : ℚ) ≤ nodeReadiness g S n.id))).map (fun n => n.id)

theorem metricsGo_readiness (g : List (String × List (List String)))
    (S : String → Option String) :
    ∀ (nodes : List SkillNode) (acc : ProgressMetrics) (id : String),
    assocGet (computeProgressMetricsGo g S nodes acc).readinessById id
      = if id ∈ nodes.map (fun n => n.id) then some (nodeReadiness g S id)
        else assocGet acc.readinessById id := by
  intro nodes
  induction nodes with
  | nil => intro acc id; simp [computeProgressMetricsGo]
  | cons node rest ih =>
    intro acc id
    rw [show computeProgressMetricsGo g S (node :: rest) acc
      = computeProgressMetricsGo g S rest
        { stateById := assocSet acc.stateById node.id (nodeStatus S node.id)
          readinessById := assocSet acc.readinessById node.id (nodeReadiness g S node.id)
          satisfiedById := assocSet acc.satisfiedById node.id (nodeSatisfied g S node.id)
          totalById := assocSet acc.totalById node.id (nodeTotal g node.id)
          readyNowIds := if nodeStatus S node.id ≠ ProgressStatus.mastered
              ∧ (1 : ℚ) ≤ nodeReadiness g S node.id
            then acc.readyNowIds ++ [node.id] else acc.readyNowIds
          counts := countsAdd acc.counts (nodeStatus S node.id) } from rfl]
    rw [ih]
    by_cases hid : id ∈ rest.map (fun n => n.id)
    · simp [hid]
    · simp only [hid, if_false]
      rw [assocGet_assocSet]
      by_cases heq : node.id = id
      · subst heq
        simp
      · have : ¬ id = node.id := fun h => heq h.symm
        simp [hid, heq, this]

theorem metricsGo_state (g : List (String × List (List String)))
    (S : String → Option String) :
    ∀ (nodes : List SkillNode) (acc : ProgressMetrics) (id : String),
    assocGet (computeProgressMetricsGo g S nodes acc).stateById id
      = if id ∈ nodes.map (fun n => n.id) then some (nodeStatus S id)
        else assocGet acc.stateById id := by
  intro nodes
  induction nodes with
  | nil => intro acc id; simp [computeProgressMetricsGo]
  | cons node rest ih =>
    intro acc id
    rw [show computeProgressMetricsGo g S (node :: rest) acc
      = computeProgressMetricsGo g S rest
        { stateById := assocSet acc.stateById node.id (nodeStatus S node.id)
          readinessById := assocSet acc.readinessById node.id (nodeReadiness g S node.id)
          satisfiedById := assocSet acc.satisfiedById node.id (nodeSatisfied g S node.id)
          totalById := assocSet acc.totalById node.id (nodeTotal g node.id)
          readyNowIds := if nodeStatus S node.id ≠ ProgressStatus.mastered
              ∧ (1 : ℚ) ≤ nodeReadiness g S node.id
            then acc.readyNowIds ++ [node.id] else acc.readyNowIds
          counts := countsAdd acc.counts (nodeStatus S node.id) } from rfl]
    rw [ih]
    by_cases hid : id ∈ rest.map (fun n => n.id)
    · simp [hid]
    · simp only [hid, if_false]
      rw [assocGet_assocSet]
      by_cases heq : node.id = id
      · subst heq
        simp
      · have : ¬ id = node.id := fun h => heq h.symm
        simp [hid, heq, this]

theorem metricsGo_satisfied (g : List (String × List (List String)))
    (S : String → Option String) :
    ∀ (nodes : List SkillNode) (acc : ProgressMetrics) (id : String),
    assocGet (computeProgressMetricsGo g S nodes acc).satisfiedById id
      = if id ∈ nodes.map (fun n => n.id) then some (nodeSatisfied g S id)
        else assocGet acc.satisfiedById id := by
  intro nodes
  induction nodes with
  | nil => intro acc id; simp [computeProgressMetricsGo]
  | cons node rest ih =>
    intro acc id
    rw [show computeProgressMetricsGo g S (node :: rest) acc
      = computeProgressMetricsGo g S rest
        { stateById := assocSet acc.stateById node.id (nodeStatus S node.id)
          readinessById := assocSet acc.readinessById node.id (nodeReadiness g S node.id)
          satisfiedById := assocSet acc.satisfiedById node.id (nodeSatisfied g S node.id)
          totalById := assocSet acc.totalById node.id (nodeTotal g node.id)
          readyNowIds := if nodeStatus S node.id ≠ ProgressStatus.mastered
              ∧ (1 : ℚ) ≤ nodeReadiness g S node.id
            then acc.readyNowIds ++ [node.id] else acc.readyNowIds
          counts := countsAdd acc.counts (nodeStatus S node.id) } from rfl]
    rw [ih]
    by_cases hid : id ∈ rest.map (fun n => n.id)
    · simp [hid]
    · simp only [hid, if_false]
      rw [assocGet_assocSet]
      by_cases heq : node.id = id
      · subst heq
        simp
      · have : ¬ id = node.id := fun h => heq h.symm
        simp [hid, heq, this]

theorem metricsGo_total (g : List (String × List (List String)))
    (S : String → Option String) :
    ∀ (nodes : List SkillNode) (acc : ProgressMetrics) (id : String),
    assocGet (computeProgressMetricsGo g S nodes acc).totalById id
      = if id ∈ nodes.map (fun n => n.id) then some (nodeTotal g id)
        else assocGet acc.totalById id := by
  intro nodes
  induction nodes with
  | nil => intro acc id; simp [computeProgressMetricsGo]
  | cons node rest ih =>
    intro acc id
    rw [show computeProgressMetricsGo g S (node :: rest) acc
      = computeProgressMetricsGo g S rest
        { stateById := assocSet acc.stateById node.id (nodeStatus S node.id)
          readinessById := assocSet acc.readinessById node.id (nodeReadiness g S node.id)
          satisfiedById := assocSet acc.satisfiedById node.id (nodeSatisfied g S node.id)
          totalById := assocSet acc.totalById node.id (nodeTotal g node.id)
          readyNowIds := if nodeStatus S node.id ≠ ProgressStatus.mastered
              ∧ (1 : ℚ) ≤ nodeReadiness g S node.id
            then acc.readyNowIds ++ [node.id] else acc.readyNowIds
          counts := countsAdd acc.counts (nodeStatus S node.id) } from rfl]
    rw [ih]
    by_cases hid : id ∈ rest.map (fun n => n.id)
    · simp [hid]
    · simp only [hid, if_false]
      rw [assocGet_assocSet]
      by_cases heq : node.id = id
      · subst heq
        simp
      · have : ¬ id = node.id := fun h => heq h.symm
        simp [hid, heq, this]

theorem metricsGo_readyNow (g : List (String × List (List String)))
    (S : String → Option String) :
    ∀ (nodes : List SkillNode) (acc : ProgressMetrics),
    (computeProgressMetricsGo g S nodes acc).readyNowIds
      = acc.readyNowIds ++ readyFilter g S nodes := by
  intro nodes
  induction nodes with
  | nil => intro acc; simp [computeProgressMetricsGo, readyFilter]
  | cons node rest ih =>
    intro acc
    rw [show computeProgressMetricsGo g S (node :: rest) acc
      = computeProgressMetricsGo g S rest
        { stateById := assocSet acc.stateById node.id (nodeStatus S node.id)
          readinessById := assocSet acc.readinessById node.id (nodeReadiness g S node.id)
          satisfiedById := assocSet acc.satisfiedById node.id (nodeSatisfied g S node.id)
          totalById := assocSet acc.totalById node.id (nodeTotal g node.id)
          readyNowIds := if nodeStatus S node.id ≠ ProgressStatus.mastered
              ∧ (1 : ℚ) ≤ nodeReadiness g S node.id
            then acc.readyNowIds ++ [node.id] else acc.readyNowIds
          counts := countsAdd acc.counts (nodeStatus S node.id) } from rfl]
    rw [ih]
    by_cases hr : nodeStatus S node.id ≠ ProgressStatus.mastered
        ∧ (1 : ℚ) ≤ nodeReadiness g S node.id
    · simp only [if_pos hr, readyFilter, List.filter_cons, decide_eq_true hr]
      simp
    · simp only [if_neg hr, readyFilter, List.filter_cons]
      rw [show decide (nodeStatus S node.id ≠ ProgressStatus.mastered
        ∧ (1 : ℚ) ≤ nodeReadiness g S node.id) = false from decide_eq_false hr]
      simp

theorem metricsGo_counts (g : List (String × List (List String)))
    (S : String → Option String) :
    ∀ (nodes : List SkillNode) (acc : ProgressMetrics),
    (computeProgressMetricsGo g S nodes acc).counts.notStarted
      + (computeProgressMetricsGo g S nodes acc).counts.inProgress
      + (computeProgressMetricsGo g S nodes acc).counts.mastered
      = acc.counts.notStarted + acc.counts.inProgress + acc.counts.mastered
        + nodes.length := by
  intro nodes
  induction nodes with
  | nil => intro acc; simp [computeProgressMetricsGo]
  | cons node rest ih =>
    intro acc
    rw [show computeProgressMetricsGo g S (node :: rest) acc
      = computeProgressMetricsGo g S rest
        { stateById := assocSet acc.stateById node.id (nodeStatus S node.id)
          readinessById := assocSet acc.readinessById node.id (nodeReadiness g S node.id)
          satisfiedById := assocSet acc.satisfiedById node.id (nodeSatisfied g S node.id)
          totalById := assocSet acc.totalById node.id (nodeTotal g node.id)
          readyNowIds := if nodeStatus S node.id ≠ ProgressStatus.mastered
              ∧ (1 : ℚ) ≤ nodeReadiness g S node.id
            then acc.readyNowIds ++ [node.id] else acc.readyNowIds
          counts := countsAdd acc.counts (nodeStatus S node.id) } from rfl]
    rw [ih]
    cases hst : nodeStatus S node.id <;> simp [countsAdd] <;> omega

theorem computeProgressMetrics_readinessById (nodes : List SkillNode)
    (g : List (String × List (List String))) (S : String → Option String) (id : String) :
    assocGet (computeProgressMetrics nodes g S).readinessById id
      = if id ∈ nodes.map (fun n => n.id) then some (nodeReadiness g S id) else none := by
  have h := metricsGo_readiness g S nodes ⟨[], [], [], [], [], ⟨0, 0, 0, 0⟩⟩ id
  simpa [assocGet] using h

theorem computeProgressMetrics_readyNowIds (nodes : List SkillNode)
    (g : List (String × List (List String))) (S : String → Option String) :
    (computeProgressMetrics nodes g S).readyNowIds = readyFilter g S nodes := by
  have h := metricsGo_readyNow g S nodes ⟨[], [], [], [], [], ⟨0, 0, 0, 0⟩⟩
  simpa using h

theorem computeProgressMetrics_stateById (nodes : List SkillNode)
    (g : List (String × List (List String))) (S : String → Option String) (id : String) :
    assocGet (computeProgressMetrics nodes g S).stateById id
      = if id ∈ nodes.map (fun n => n.id) then some (nodeStatus S id) else none := by
  have h := metricsGo_state g S nodes ⟨[], [], [], [], [], ⟨0, 0, 0, 0⟩⟩ id
  simpa [assocGet] using h

theorem computeProgressMetrics_satisfiedById (nodes : List SkillNode)
    (g : List (String × List (List String))) (S : String → Option String) (id : String) :
    assocGet (computeProgressMetrics nodes g S).satisfiedById id
      = if id ∈ nodes.map (fun n => n.id) then some (nodeSatisfied g S id) else none := by
  have h := metricsGo_satisfied g S nodes ⟨[], [], [], [], [], ⟨0, 0, 0, 0⟩⟩ id
  simpa [assocGet] using h

theorem computeProgressMetrics_totalById (nodes : List SkillNode)
    (g : List (String × List (List String))) (S : String → Option String) (id : String) :
    assocGet (computeProgressMetrics nodes g S).totalById id
      = if id ∈ nodes.map (fun n => n.id) then some (nodeTotal g id) else none := by
  have h := metricsGo_total g S nodes ⟨[], [], [], [], [], ⟨0, 0, 0, 0⟩⟩ id
  simpa [assocGet] using h

theorem groupSatisfied_mono (S : String → Option String) (skill : String)
    (grp : List String) (h : groupSatisfied S grp = true) :
    groupSatisfied (fun x => if x = skill then some "mastered" else S x) grp = true := by
  unfold groupSatisfied at h ⊢
  rw [List.any_eq_true] at h ⊢
  obtain ⟨a, ha, hma⟩ := h
  refine ⟨a, ha, ?_⟩
  rw [decide_eq_true_eq] at hma ⊢
  show normalizeProgressStatus (if a = skill then some "mastered" else S a)
    = ProgressStatus.mastered
  by_cases hx : a = skill
  · rw [if_pos hx]
    decide
  · rw [if_neg hx]
    exact hma

theorem nodeSatisfied_mono (g : List (String × List (List String)))
    (S : String → Option String) (skill : String) (id : String) :
    nodeSatisfied g S id
      ≤ nodeSatisfied g (fun x => if x = skill then some "mastered" else S x) id := by
  unfold nodeSatisfied
  exact List.countP_mono_left (fun grp _ h => groupSatisfied_mono S skill grp h)

theorem nodeReadiness_mono (g : List (String × List (List String)))
    (S : String → Option String) (skill : String) (id : String) :
    nodeReadiness g S id
      ≤ nodeReadiness g (fun x => if x = skill then some "mastered" else S x) id := by
  unfold nodeReadiness
  by_cases h0 : nodeTotal g id = 0
  · rw [if_pos h0, if_pos h0]
  · rw [if_neg h0, if_neg h0]
    have hpos : (0 : ℚ) < (nodeTotal g id : ℚ) := by
      have := Nat.pos_of_ne_zero h0
      exact_mod_cast this
    gcongr
    exact_mod_cast nodeSatisfied_mono g S skill id

/-- C5: marking one skill as mastered (all other entries unchanged)
never decreases any node's readiness. -/
theorem claim_readiness_monotone (nodes : List SkillNode)
    (g : List (String × List (List String))) (S : String → Option String)
    (skill : String) (id : String) :
    (assocGet (computeProgressMetrics nodes g S).readinessById id).getD 0
      ≤ (assocGet (computeProgressMetrics nodes g
          (fun x => if x = skill then some "mastered" else S x)).readinessById id).getD 0 := by
  rw [computeProgressMetrics_readinessById, computeProgressMetrics_readinessById]
  by_cases hid : id ∈ nodes.map (fun n => n.id)
  · rw [if_pos hid, if_pos hid]
    simpa using nodeReadiness_mono g S skill id
  · rw [if_neg hid, if_neg hid]

/-- C9: the three status tallies sum to the number of input nodes,
`counts.readyNow` is the length of `readyNowIds`, and every input node
ID has an entry in all four per-node maps. -/
theorem claim_counts_invariant (nodes : List SkillNode)
    (g : List (String × List (List String))) (S : String → Option String) :
    ((computeProgressMetrics nodes g S).counts.notStarted
      + (computeProgressMetrics nodes g S).counts.inProgress
      + (computeProgressMetrics nodes g S).counts.mastered = nodes.length)
    ∧ (computeProgressMetrics nodes g S).counts.readyNow
        = (computeProgressMetrics nodes g S).readyNowIds.length
    ∧ ∀ id ∈ nodes.map (fun n => n.id),
        (assocGet (computeProgressMetrics nodes g S).stateById id).isSome
        ∧ (assocGet (computeProgressMetrics nodes g S).readinessById id).isSome
        ∧ (assocGet (computeProgressMetrics nodes g S).satisfiedById id).isSome
        ∧ (assocGet (computeProgressMetrics nodes g S).totalById id).isSome := by
  refine ⟨?_, rfl, ?_⟩
  · have h := metricsGo_counts g S nodes ⟨[], [], [], [], [], ⟨0, 0, 0, 0⟩⟩
    simpa using h
  · intro id hid
    rw [computeProgressMetrics_stateById, computeProgressMetrics_readinessById,
      computeProgressMetrics_satisfiedById, computeProgressMetrics_totalById]
    rw [if_pos hid, if_pos hid, if_pos hid, if_pos hid]
    exact ⟨rfl, rfl, rfl, rfl⟩

/-- Witness for `claim_counts_invariant` on a one-node input. -/
theorem claim_counts_invariant_witness :
    (assocGet (computeProgressMetrics [⟨"n"⟩] [] (fun _ => none)).stateById "n").isSome
    ∧ (computeProgressMetrics [⟨"n"⟩] [] (fun _ => none)).counts.notStarted
      + (computeProgressMetrics [⟨"n"⟩] [] (fun _ => none)).counts.inProgress
      + (computeProgressMetrics [⟨"n"⟩] [] (fun _ => none)).counts.mastered = 1 := by
  have h := claim_counts_invariant [⟨"n"⟩] [] (fun _ => none)
  exact ⟨(h.2.2 "n" (by decide)).1, h.1⟩

/-- C3 counterexample: with the scenario's literal node IDs A, B, C
(which are not `PREFIX number` skill codes) the token parser expands
every token to nothing, so C gets an empty group list and no edge is
classified — not the claimed `[[A],[B,A]]` with a required and an or
edge. -/
theorem claim_end_to_end_counterexample :
    assocGet (buildPrerequisiteModel [("C", ["A", "B (or A)"])] ["A", "B", "C"]).groupsByTarget "C"
      = some []
    ∧ assocGet (buildPrerequisiteModel [("C", ["A", "B (or A)"])] ["A", "B", "C"]).edgeTypeByKey
        "A=>C" = none := by
  refine ⟨by decide, by decide⟩

/-- C3 amended: the end-to-end scenario with well-formed skill codes
(A 1, B 1, C 1): groups for C 1 are `[[A 1], [B 1, A 1]]`, edge
`A 1 → C 1` is required and `B 1 → C 1` is or, and with A 1 mastered
the readiness of C 1 is 1 and C 1 is in the ready-now list. -/
theorem claim_end_to_end_amended :
    assocGet (buildPrerequisiteModel [("C 1", ["A 1", "B 1 (or A 1)"])]
        ["A 1", "B 1", "C 1"]).groupsByTarget "C 1" = some [["A 1"], ["B 1", "A 1"]]
    ∧ assocGet (buildPrerequisiteModel [("C 1", ["A 1", "B 1 (or A 1)"])]
        ["A 1", "B 1", "C 1"]).edgeTypeByKey "A 1=>C 1" = some EdgeType.required
    ∧ assocGet (buildPrerequisiteModel [("C 1", ["A 1", "B 1 (or A 1)"])]
        ["A 1", "B 1", "C 1"]).edgeTypeByKey "B 1=>C 1" = some EdgeType.or
    ∧ assocGet (computeProgressMetrics [⟨"A 1"⟩, ⟨"B 1"⟩, ⟨"C 1"⟩]
        (buildPrerequisiteModel [("C 1", ["A 1", "B 1 (or A 1)"])]
          ["A 1", "B 1", "C 1"]).groupsByTarget
        (fun x => if x = "A 1" then some "mastered" else none)).readinessById "C 1"
      = some 1
    ∧ "C 1" ∈ (computeProgressMetrics [⟨"A 1"⟩, ⟨"B 1"⟩, ⟨"C 1"⟩]
        (buildPrerequisiteModel [("C 1", ["A 1", "B 1 (or A 1)"])]
          ["A 1", "B 1", "C 1"]).groupsByTarget
        (fun x => if x = "A 1" then some "mastered" else none)).readyNowIds := by
  have hr1 : nodeReadiness
      (buildPrerequisiteModel [("C 1", ["A 1", "B 1 (or A 1)"])]
        ["A 1", "B 1", "C 1"]).groupsByTarget
      (fun x => if x = "A 1" then some "mastered" else none) "C 1" = 1 := by
    have ht : nodeTotal (buildPrerequisiteModel [("C 1", ["A 1", "B 1 (or A 1)"])]
        ["A 1", "B 1", "C 1"]).groupsByTarget "C 1" = 2 := by decide
    have hs : nodeSatisfied (buildPrerequisiteModel [("C 1", ["A 1", "B 1 (or A 1)"])]
          ["A 1", "B 1", "C 1"]).groupsByTarget
        (fun x => if x = "A 1" then some "mastered" else none) "C 1" = 2 := by decide
    unfold nodeReadiness
    rw [ht, hs]
    norm_num
  refine ⟨by decide, by decide, by decide, ?_, ?_⟩
  · rw [computeProgressMetrics_readinessById]
    simp only [List.map_cons, List.map_nil]
    rw [if_pos (by decide), hr1]
  · rw [computeProgressMetrics_readyNowIds]
    unfold readyFilter
    refine List.mem_map.mpr ⟨⟨"C 1"⟩, List.mem_filter.mpr ⟨by decide, ?_⟩, rfl⟩
    rw [decide_eq_true_eq]
    refine ⟨by decide, ?_⟩
    rw [hr1]

/-! Walks, used for the transitive-reduction reachability proof. -/

/-- A walk from `u` to `v` whose node sequence is `l` (both endpoints
included). -/
inductive Walk (E : List (String × String)) : String → String → List String → Prop
  | nil (u : String) : Walk E u u [u]
  | cons {u v w : String} {l : List String} :
      (u, v) ∈ E → Walk E v w l → Walk E u w (u :: l)

theorem Walk.ne_nil {E : List (String × String)} {u v : String} {l : List String}
    (h : Walk E u v l) : l ≠ [] := by
  cases h <;> simp

theorem Walk.append {E : List (String × String)} {u x v : String} {l m : List String}
    (h1 : Walk E u x l) (h2 : Walk E x v m) : Walk E u v (l.dropLast ++ m) := by
  induction h1 with
  | nil u => simpa using h2
  | cons hedge hwalk ih =>
    rename_i a b c l'
    obtain ⟨p, l'', rfl⟩ := List.exists_cons_of_ne_nil hwalk.ne_nil
    exact Walk.cons hedge (ih h2)

theorem reaches_iff_walk {E : List (String × String)} {u v : String} :
    Reaches E u v ↔ ∃ l, Walk E u v l := by
  constructor
  · intro h
    induction h with
    | refl => exact ⟨[u], Walk.nil u⟩
    | tail _ hbc ih =>
      obtain ⟨l, hw⟩ := ih
      exact ⟨l.dropLast ++ [_, _], hw.append (Walk.cons hbc (Walk.nil _))⟩
  · rintro ⟨l, hw⟩
    induction hw with
    | nil u => exact Relation.ReflTransGen.refl
    | cons hedge _ ih => exact Relation.ReflTransGen.head hedge ih

theorem reaches_mono {E F : List (String × String)} (hsub : ∀ e ∈ E, e ∈ F) {u v : String}
    (h : Reaches E u v) : Reaches F u v := by
  induction h with
  | refl => exact Relation.ReflTransGen.refl
  | tail _ hbc ih => exact Relation.ReflTransGen.tail ih (hsub _ hbc)

theorem reaches_congr {E F : List (String × String)}
    (h : ∀ p : String × String, p ∈ E ↔ p ∈ F) {u v : String} :
    (Reaches E u v ↔ Reaches F u v) :=
  ⟨reaches_mono (fun e he => (h e).mp he), reaches_mono (fun e he => (h e).mpr he)⟩

theorem Walk.mem_reaches {E : List (String × String)} {u v : String} {l : List String}
    (h : Walk E u v l) : ∀ x ∈ l, Reaches E u x := by
  induction h with
  | nil u =>
    intro x hx
    simp at hx
    subst hx
    exact Relation.ReflTransGen.refl
  | cons hedge _ ih =>
    intro x hx
    rcases List.mem_cons.mp hx with rfl | hx'
    · exact Relation.ReflTransGen.refl
    · exact Relation.ReflTransGen.head hedge (ih x hx')

theorem Walk.nodup_of_acyclic {E : List (String × String)} (hacyc : Acyclic E) :
    ∀ {u v : String} {l : List String}, Walk E u v l → l.Nodup := by
  intro u v l h
  induction h with
  | nil u => simp
  | cons hedge hwalk ih =>
    refine List.nodup_cons.mpr ⟨?_, ih⟩
    intro hmem
    exact hacyc _ (Relation.TransGen.head' hedge (hwalk.mem_reaches _ hmem))

theorem Walk.mem_start_or_ids {E : List (String × String)} (ids : List String)
    (hE : ∀ e ∈ E, e.1 ∈ ids ∧ e.2 ∈ ids) :
    ∀ {u v : String} {l : List String}, Walk E u v l → ∀ x ∈ l, x = u ∨ x ∈ ids := by
  intro u v l h
  induction h with
  | nil u =>
    intro x hx
    simp at hx
    exact Or.inl hx
  | cons hedge hwalk ih =>
    intro x hx
    rcases List.mem_cons.mp hx with rfl | hx'
    · exact Or.inl rfl
    · rcases ih x hx' with rfl | hmem
      · exact Or.inr (hE _ hedge).2
      · exact Or.inr hmem

theorem Walk.length_le {E : List (String × String)} (ids : List String)
    (hE : ∀ e ∈ E, e.1 ∈ ids ∧ e.2 ∈ ids) (hacyc : Acyclic E)
    {u v : String} {l : List String} (h : Walk E u v l) (hu : u ∈ ids) :
    l.length ≤ ids.toFinset.card := by
  have hnd : l.Nodup := h.nodup_of_acyclic hacyc
  have hsub : l.toFinset ⊆ ids.toFinset := by
    intro x hx
    rw [List.mem_toFinset] at hx ⊢
    rcases h.mem_start_or_ids ids hE x hx with rfl | hmem
    · exact hu
    · exact hmem
  calc l.length = l.toFinset.card := (List.toFinset_card_of_nodup hnd).symm
  _ ≤ ids.toFinset.card := Finset.card_le_card hsub

theorem transGen_walk {E : List (String × String)} {u v : String}
    (h : Relation.TransGen (edgeRel E) u v) :
    ∃ l, Walk E u v l ∧ 2 ≤ l.length := by
  induction h with
  | single h1 => exact ⟨[u, _], Walk.cons h1 (Walk.nil _), by simp⟩
  | tail _ hbc ih =>
    obtain ⟨l, hw, hlen⟩ := ih
    refine ⟨l.dropLast ++ [_, _], hw.append (Walk.cons hbc (Walk.nil _)), ?_⟩
    rw [List.length_append, List.length_dropLast]
    simp

/-- Every walk either lies entirely inside `F`, or contains an edge of
`E` outside `F` splitting it into two walks. -/
theorem walk_split (E F : List (String × String)) :
    ∀ {u v : String} {l : List String}, Walk E u v l →
    Walk F u v l ∨ ∃ a b l1 l2, (a, b) ∈ E ∧ (a, b) ∉ F
      ∧ Walk E u a l1 ∧ Walk E b v l2 ∧ l.length = l1.length + l2.length := by
  intro u v l h
  induction h with
  | nil u => exact Or.inl (Walk.nil u)
  | cons hedge hwalk ih =>
    rename_i a b c l'
    by_cases hF : (a, b) ∈ F
    · rcases ih with hl | ⟨a1, b1, l1, l2, hab, habF, h1, h2, hlen⟩
      · exact Or.inl (Walk.cons hF hl)
      · refine Or.inr ⟨a1, b1, a :: l1, l2, hab, habF, Walk.cons hedge h1, h2, ?_⟩
        simp [hlen]
        omega
    · exact Or.inr ⟨a, b, [a], l', hedge, hF, Walk.nil a, hwalk, by simp; omega⟩

/-! Soundness of the descendant-set computation: every recorded
descendant is reachable by at least one edge. -/

theorem descAdd_sound {E : List (String × String)} {d : String → List String}
    {src y : String}
    (hd : ∀ s x, x ∈ d s → Relation.TransGen (edgeRel E) s x)
    (hy : Relation.TransGen (edgeRel E) src y) :
    ∀ s x, x ∈ descAdd d src y s → Relation.TransGen (edgeRel E) s x := by
  intro s x hx
  unfold descAdd at hx
  by_cases hs : s = src
  · subst hs
    rw [if_pos rfl] at hx
    unfold listAdd at hx
    by_cases hmem : y ∈ d s
    · rw [if_pos hmem] at hx
      exact hd s x hx
    · rw [if_neg hmem] at hx
      rcases List.mem_append.mp hx with h | h
      · exact hd s x h
      · simp at h
        subst h
        exact hy
  · rw [if_neg hs] at hx
    exact hd s x hx

theorem descStep_sound {E : List (String × String)} (src t : String)
    (d : String → List String)
    (hd : ∀ s x, x ∈ d s → Relation.TransGen (edgeRel E) s x)
    (ht : Relation.TransGen (edgeRel E) src t) :
    ∀ s x, x ∈ descStep src d t s → Relation.TransGen (edgeRel E) s x := by
  unfold descStep
  have hfold : ∀ (ys : List String) (d0 : String → List String),
      (∀ s x, x ∈ d0 s → Relation.TransGen (edgeRel E) s x) →
      (∀ y ∈ ys, Relation.TransGen (edgeRel E) src y) →
      ∀ s x, x ∈ (ys.foldl (fun dd y => descAdd dd src y) d0) s →
        Relation.TransGen (edgeRel E) s x := by
    intro ys
    induction ys with
    | nil => intro d0 h0 _ s x hx; exact h0 s x hx
    | cons y ys ih =>
      intro d0 h0 hys s x hx
      exact ih (descAdd d0 src y) (descAdd_sound h0 (hys y (by simp)))
        (fun y' hy' => hys y' (by simp [hy'])) s x hx
  intro s x hx
  refine hfold (d t) (descAdd d src t) (descAdd_sound hd ht) ?_ s x hx
  intro y hy
  exact Relation.TransGen.trans ht (hd t y hy)

theorem buildDescendants_sound (E : List (String × String)) :
    ∀ (order : List String) (d : String → List String),
    (∀ s x, x ∈ d s → Relation.TransGen (edgeRel E) s x) →
    ∀ s x, x ∈ buildDescendants (outOf E) order d s →
      Relation.TransGen (edgeRel E) s x := by
  intro order
  induction order with
  | nil => intro d hd s x hx; exact hd s x hx
  | cons src rest ih =>
    intro d hd s x hx
    have hfold : ∀ (ts : List String) (d0 : String → List String),
        (∀ s x, x ∈ d0 s → Relation.TransGen (edgeRel E) s x) →
        (∀ t ∈ ts, (src, t) ∈ E) →
        ∀ s x, x ∈ (ts.foldl (descStep src) d0) s → Relation.TransGen (edgeRel E) s x := by
      intro ts
      induction ts with
      | nil => intro d0 h0 _ s x hx; exact h0 s x hx
      | cons t ts iht =>
        intro d0 h0 hts s x hx
        exact iht (descStep src d0 t)
          (descStep_sound src t d0 h0 (Relation.TransGen.single (hts t (by simp))))
          (fun t' ht' => hts t' (by simp [ht'])) s x hx
    exact ih _ (hfold (outOf E src) d hd (fun t ht => (mem_outOf E src t).mp ht)) s x hx

theorem validPairs_cons (ids : List String) (l0 : SkillLink) (rest : List SkillLink) :
    validPairs ids (l0 :: rest)
      = if l0.source ∈ ids ∧ l0.target ∈ ids
        then (l0.source, l0.target) :: validPairs ids rest
        else validPairs ids rest := by
  unfold validPairs linkPairs
  rw [List.filter_cons]
  by_cases h : l0.source ∈ ids ∧ l0.target ∈ ids
  · rw [if_pos h]
    have hb : (decide (l0.source ∈ ids) && decide (l0.target ∈ ids)) = true := by
      simp [h.1, h.2]
    rw [hb]
    simp
  · rw [if_neg h]
    have hb : (decide (l0.source ∈ ids) && decide (l0.target ∈ ids)) = false := by
      rw [Bool.and_eq_false_iff]
      by_cases h1 : l0.source ∈ ids
      · right
        simp
        intro h2
        exact h ⟨h1, h2⟩
      · left
        simp [h1]
    rw [hb]
    simp

theorem dedupValidLinks_cons_new (ids : List String) (l0 : SkillLink) (rest : List SkillLink)
    (seen : List String) (hv : l0.source ∈ ids ∧ l0.target ∈ ids)
    (hk : linkKey l0 ∉ seen) :
    dedupValidLinks ids (l0 :: rest) seen
      = l0 :: dedupValidLinks ids rest (linkKey l0 :: seen) := by
  simp only [dedupValidLinks]
  rw [if_pos hv, if_neg hk]

theorem dedupValidLinks_cons_dup (ids : List String) (l0 : SkillLink) (rest : List SkillLink)
    (seen : List String) (hv : l0.source ∈ ids ∧ l0.target ∈ ids)
    (hk : linkKey l0 ∈ seen) :
    dedupValidLinks ids (l0 :: rest) seen = dedupValidLinks ids rest seen := by
  simp only [dedupValidLinks]
  rw [if_pos hv, if_pos hk]

theorem dedupValidLinks_cons_invalid (ids : List String) (l0 : SkillLink) (rest : List SkillLink)
    (seen : List String) (hv : ¬(l0.source ∈ ids ∧ l0.target ∈ ids)) :
    dedupValidLinks ids (l0 :: rest) seen = dedupValidLinks ids rest seen := by
  simp only [dedupValidLinks]
  rw [if_neg hv]

/-- Under injective edge keying (no two valid endpoint pairs share a
`source=>target` string), key deduplication preserves exactly the set
of valid endpoint pairs. -/
theorem dedupValidLinks_pairs (ids : List String)
    (hinj : ∀ s ∈ ids, ∀ t ∈ ids, ∀ s2 ∈ ids, ∀ t2 ∈ ids,
      s ++ "=>" ++ t = s2 ++ "=>" ++ t2 → s = s2 ∧ t = t2) :
    ∀ (links : List SkillLink) (seen : List String) (p : String × String),
    (p ∈ linkPairs (dedupValidLinks ids links seen) ↔
      p ∈ validPairs ids links ∧ p.1 ++ "=>" ++ p.2 ∉ seen) := by
  intro links
  induction links with
  | nil =>
    intro seen p
    simp [dedupValidLinks, validPairs, linkPairs]
  | cons l0 rest ih =>
    intro seen p
    by_cases hv : l0.source ∈ ids ∧ l0.target ∈ ids
    · by_cases hk : linkKey l0 ∈ seen
      · rw [dedupValidLinks_cons_dup ids l0 rest seen hv hk, ih seen p,
          validPairs_cons, if_pos hv]
        constructor
        · rintro ⟨hm, hns⟩
          exact ⟨List.mem_cons.mpr (Or.inr hm), hns⟩
        · rintro ⟨hm, hns⟩
          rcases List.mem_cons.mp hm with heq | hm'
          · subst heq
            exact absurd hk hns
          · exact ⟨hm', hns⟩
      · rw [dedupValidLinks_cons_new ids l0 rest seen hv hk]
        rw [show linkPairs (l0 :: dedupValidLinks ids rest (linkKey l0 :: seen))
          = (l0.source, l0.target)
            :: linkPairs (dedupValidLinks ids rest (linkKey l0 :: seen)) from rfl]
        rw [validPairs_cons, if_pos hv]
        constructor
        · intro hm
          rcases List.mem_cons.mp hm with heq | hm'
          · subst heq
            exact ⟨List.mem_cons.mpr (Or.inl rfl), hk⟩
          · obtain ⟨hm'', hns'⟩ := (ih _ p).mp hm'
            refine ⟨List.mem_cons.mpr (Or.inr hm''), fun hs => hns' ?_⟩
            exact List.mem_cons.mpr (Or.inr hs)
        · rintro ⟨hm, hns⟩
          by_cases hpe : p = (l0.source, l0.target)
          · exact List.mem_cons.mpr (Or.inl hpe)
          · rcases List.mem_cons.mp hm with heq | hm'
            · exact absurd heq hpe
            · refine List.mem_cons.mpr (Or.inr ((ih _ p).mpr ⟨hm', ?_⟩))
              intro hs
              rcases List.mem_cons.mp hs with hkey | hseen
              · obtain ⟨hp1, hp2⟩ := validPairs_mem ids rest p hm'
                have := hinj p.1 hp1 p.2 hp2 l0.source hv.1 l0.target hv.2 hkey
                apply hpe
                obtain ⟨h1, h2⟩ := this
                obtain ⟨a, b⟩ := p
                simp at h1 h2
                simp [h1, h2]
              · exact hns hseen
    · rw [dedupValidLinks_cons_invalid ids l0 rest seen hv, ih seen p,
        validPairs_cons, if_neg hv]

theorem isRedundant_spec (out : String → List String) (desc : String → List String)
    (l : SkillLink) (h : isRedundant out desc l = true) :
    ∃ w ∈ out l.source, w ≠ l.target ∧ l.target ∈ desc w := by
  unfold isRedundant at h
  rw [List.any_eq_true] at h
  obtain ⟨w, hw, hcond⟩ := h
  rw [Bool.and_eq_true, decide_eq_true_eq, decide_eq_true_eq] at hcond
  exact ⟨w, hw, hcond.1, hcond.2⟩

theorem transitiveReduceCore_reduce (nodes : List SkillNode) (links : List SkillLink)
    (h : (kahnRun (outOf (linkPairs (dedupValidLinks (nodes.map (fun n => n.id)) links [])))
          (nodes.map (fun n => n.id))
          (inDegI (linkPairs (dedupValidLinks (nodes.map (fun n => n.id)) links [])))).2.2.length
        = (nodes.map (fun n => n.id)).length) :
    transitiveReduceCore nodes links
      = (dedupValidLinks (nodes.map (fun n => n.id)) links []).filter
          (fun l => ! isRedundant
            (outOf (linkPairs (dedupValidLinks (nodes.map (fun n => n.id)) links [])))
            (buildDescendants
              (outOf (linkPairs (dedupValidLinks (nodes.map (fun n => n.id)) links [])))
              ((kahnRun (outOf (linkPairs (dedupValidLinks (nodes.map (fun n => n.id)) links [])))
                (nodes.map (fun n => n.id))
                (inDegI (linkPairs
                  (dedupValidLinks (nodes.map (fun n => n.id)) links [])))).2.2).reverse
              (fun _ => []))
            l) := by
  simp only [transitiveReduceCore]
  rw [if_pos h]

/-- Core of the reachability-preservation proof: a walk in the
deduplicated edge set yields reachability through the kept edges,
because any removed edge has a strictly longer detour and, the graph
being acyclic, walk lengths are bounded. -/
theorem keepWalk (Ed F : List (String × String)) (ids : List String)
    (desc : String → List String)
    (hE : ∀ e ∈ Ed, e.1 ∈ ids ∧ e.2 ∈ ids)
    (hacyc : Acyclic Ed)
    (hdesc : ∀ s x, x ∈ desc s → Relation.TransGen (edgeRel Ed) s x)
    (hremoved : ∀ a b, (a, b) ∈ Ed → (a, b) ∉ F →
      ∃ w, (a, w) ∈ Ed ∧ w ≠ b ∧ b ∈ desc w)
    (u : String) (hu : u ∈ ids) :
    ∀ (k : Nat) (v : String) (l : List String), Walk Ed u v l →
      ids.toFinset.card + 1 ≤ l.length + k → Reaches F u v := by
  intro k
  induction k with
  | zero =>
    intro v l hw hb
    have := hw.length_le ids hE hacyc hu
    omega
  | succ k ih =>
    intro v l hw hb
    rcases walk_split Ed F hw with hF | ⟨a, b, l1, l2, hab, habF, h1, h2, hlen⟩
    · exact reaches_iff_walk.mpr ⟨l, hF⟩
    · obtain ⟨w, haw, _, hbdesc⟩ := hremoved a b hab habF
      obtain ⟨lwb, hwbWalk, hlwb⟩ := transGen_walk (hdesc w b hbdesc)
      have W3 : Walk Ed u v ((l1.dropLast ++ (a :: lwb)).dropLast ++ l2) :=
        (h1.append (Walk.cons haw hwbWalk)).append h2
      have hl1 : 1 ≤ l1.length := by
        have hne := h1.ne_nil
        cases l1 with
        | nil => simp at hne
        | cons _ _ => simp
      apply ih v _ W3
      rw [List.length_append, List.length_dropLast, List.length_append,
        List.length_dropLast, List.length_cons]
      omega

/-- C1 amended: provided the `source=>target` string keying is
injective on the node-ID set (in particular whenever no ID contains the
substring "=>", as real skill codes do not), transitive reduction
preserves reachability between any two nodes of a DAG input. -/
theorem claim_reachability_preserved (nodes : List SkillNode) (links : List SkillLink)
    (hinj : ∀ s ∈ nodes.map (fun n => n.id), ∀ t ∈ nodes.map (fun n => n.id),
      ∀ s2 ∈ nodes.map (fun n => n.id), ∀ t2 ∈ nodes.map (fun n => n.id),
      s ++ "=>" ++ t = s2 ++ "=>" ++ t2 → s = s2 ∧ t = t2)
    (hacyc : Acyclic (validPairs (nodes.map (fun n => n.id)) links))
    (u v : String) (hu : u ∈ nodes.map (fun n => n.id))
    (hv : v ∈ nodes.map (fun n => n.id)) :
    (Reaches (validPairs (nodes.map (fun n => n.id)) links) u v ↔
      Reaches (linkPairs (transitiveReduceLinks (some nodes) (some links))) u v) := by
  have hpairs : ∀ p : String × String,
      p ∈ linkPairs (dedupValidLinks (nodes.map (fun n => n.id)) links []) ↔
        p ∈ validPairs (nodes.map (fun n => n.id)) links := by
    intro p
    rw [dedupValidLinks_pairs (nodes.map (fun n => n.id)) hinj links [] p]
    simp
  have hEd : ∀ e ∈ linkPairs (dedupValidLinks (nodes.map (fun n => n.id)) links []),
      e.1 ∈ nodes.map (fun n => n.id) ∧ e.2 ∈ nodes.map (fun n => n.id) := by
    intro e he
    exact validPairs_mem _ links e ((hpairs e).mp he)
  have hacycd : Acyclic (linkPairs (dedupValidLinks (nodes.map (fun n => n.id)) links [])) := by
    intro x hx
    exact hacyc x (Relation.TransGen.mono (fun a b hab => (hpairs (a, b)).mp hab) hx)
  by_cases hns : nodes = []
  · subst hns
    simp at hu
  by_cases hls : links = []
  · subst hls
    have h2 : transitiveReduceLinks (some nodes) (some []) = [] := by
      simp [transitiveReduceLinks]
    rw [h2]
    exact Iff.rfl
  have hguard : transitiveReduceLinks (some nodes) (some links)
      = transitiveReduceCore nodes links := by
    simp [transitiveReduceLinks, hns, hls]
  rw [hguard]
  by_cases hbr : (kahnRun
      (outOf (linkPairs (dedupValidLinks (nodes.map (fun n => n.id)) links [])))
      (nodes.map (fun n => n.id))
      (inDegI (linkPairs (dedupValidLinks (nodes.map (fun n => n.id)) links [])))).2.2.length
      = (nodes.map (fun n => n.id)).length
  · rw [transitiveReduceCore_reduce nodes links hbr]
    have hdescs : ∀ s x, x ∈ buildDescendants
        (outOf (linkPairs (dedupValidLinks (nodes.map (fun n => n.id)) links [])))
        ((kahnRun (outOf (linkPairs (dedupValidLinks (nodes.map (fun n => n.id)) links [])))
          (nodes.map (fun n => n.id))
          (inDegI (linkPairs
            (dedupValidLinks (nodes.map (fun n => n.id)) links [])))).2.2).reverse
        (fun _ => []) s
        → Relation.TransGen
            (edgeRel (linkPairs (dedupValidLinks (nodes.map (fun n => n.id)) links []))) s x :=
      buildDescendants_sound _ _ _ (fun s x hx => absurd hx (List.not_mem_nil x))

    constructor
    · intro h
      have hd : Reaches (linkPairs (dedupValidLinks (nodes.map (fun n => n.id)) links [])) u v :=
        (reaches_congr hpairs).mpr h
      obtain ⟨l, hw⟩ := reaches_iff_walk.mp hd
      have hremoved : ∀ a b,
          (a, b) ∈ linkPairs (dedupValidLinks (nodes.map (fun n => n.id)) links []) →
          (a, b) ∉ linkPairs ((dedupValidLinks (nodes.map (fun n => n.id)) links []).filter
            (fun l => ! isRedundant
              (outOf (linkPairs (dedupValidLinks (nodes.map (fun n => n.id)) links [])))
              (buildDescendants
                (outOf (linkPairs (dedupValidLinks (nodes.map (fun n => n.id)) links [])))
                ((kahnRun
                  (outOf (linkPairs (dedupValidLinks (nodes.map (fun n => n.id)) links [])))
                  (nodes.map (fun n => n.id))
                  (inDegI (linkPairs
                    (dedupValidLinks (nodes.map (fun n => n.id)) links [])))).2.2).reverse
                (fun _ => []))
              l)) →
          ∃ w, (a, w) ∈ linkPairs (dedupValidLinks (nodes.map (fun n => n.id)) links [])
            ∧ w ≠ b
            ∧ b ∈ buildDescendants
                (outOf (linkPairs (dedupValidLinks (nodes.map (fun n => n.id)) links [])))
                ((kahnRun
                  (outOf (linkPairs (dedupValidLinks (nodes.map (fun n => n.id)) links [])))
                  (nodes.map (fun n => n.id))
                  (inDegI (linkPairs
                    (dedupValidLinks (nodes.map (fun n => n.id)) links [])))).2.2).reverse
                (fun _ => []) w := by
        intro a b hab habF
        obtain ⟨l0, hl0, hpe⟩ := List.mem_map.mp hab
        have hl0red : isRedundant
            (outOf (linkPairs (dedupValidLinks (nodes.map (fun n => n.id)) links [])))
            (buildDescendants
              (outOf (linkPairs (dedupValidLinks (nodes.map (fun n => n.id)) links [])))
              ((kahnRun
                (outOf (linkPairs (dedupValidLinks (nodes.map (fun n => n.id)) links [])))
                (nodes.map (fun n => n.id))
                (inDegI (linkPairs
                  (dedupValidLinks (nodes.map (fun n => n.id)) links [])))).2.2).reverse
              (fun _ => []))
            l0 = true := by
          by_contra hc
          apply habF
          refine List.mem_map.mpr ⟨l0, List.mem_filter.mpr ⟨hl0, ?_⟩, hpe⟩
          simp [hc]
        obtain ⟨w, hwmem, hwne, hwdesc⟩ := isRedundant_spec _ _ l0 hl0red
        have hs : l0.source = a := by
          have h' := congrArg Prod.fst hpe
          simpa using h'
        have ht : l0.target = b := by
          have h' := congrArg Prod.snd hpe
          simpa using h'
        rw [hs] at hwmem
        rw [ht] at hwne hwdesc
        exact ⟨w, (mem_outOf _ a w).mp hwmem, hwne, hwdesc⟩
      exact keepWalk _ _ (nodes.map (fun n => n.id)) _ hEd hacycd hdescs hremoved u hu
        ((nodes.map (fun n => n.id)).toFinset.card + 1) v l hw (by omega)
    · intro h
      apply (reaches_congr hpairs).mp
      apply reaches_mono ?_ h
      intro e he
      obtain ⟨l0, hl0, rfl⟩ := List.mem_map.mp he
      exact List.mem_map.mpr ⟨l0, (List.mem_filter.mp hl0).1, rfl⟩
  · rw [transitiveReduceCore_skip nodes links hbr]
    exact reaches_congr (fun p => (hpairs p).symm)

/-- Witness for `claim_reachability_preserved` on the triangle DAG
`p → q → r` with the shortcut `p → r` (which reduction removes). -/
theorem claim_reachability_preserved_witness :
    Reaches (validPairs (([⟨"p"⟩, ⟨"q"⟩, ⟨"r"⟩] : List SkillNode).map (fun n => n.id))
        [⟨"p", "q"⟩, ⟨"q", "r"⟩, ⟨"p", "r"⟩]) "p" "r" ↔
      Reaches (linkPairs (transitiveReduceLinks (some [⟨"p"⟩, ⟨"q"⟩, ⟨"r"⟩])
        (some [⟨"p", "q"⟩, ⟨"q", "r"⟩, ⟨"p", "r"⟩]))) "p" "r" := by
  exact claim_reachability_preserved [⟨"p"⟩, ⟨"q"⟩, ⟨"r"⟩]
    [⟨"p", "q"⟩, ⟨"q", "r"⟩, ⟨"p", "r"⟩]
    (by decide)
    (acyclic_of_rank _ (fun s => if s = "p" then 0 else if s = "q" then 1 else 2) (by decide))
    "p" "r" (by decide) (by decide)

theorem reaches_no_out {E : List (String × String)} {x y : String}
    (hno : ∀ e ∈ E, e.1 ≠ x) (h : Reaches E x y) : y = x := by
  rcases Relation.ReflTransGen.cases_head h with h0 | ⟨c, hc, _⟩
  · exact h0.symm
  · exact absurd rfl (hno _ hc)

/-- C1 counterexample: node IDs containing "=>" make two distinct
valid edges collide on the `source=>target` key, so deduplication drops
a real edge and reachability is lost even though the induced subgraph
is a DAG.  Here edges `(a, b=>c)` and `(a=>b, c)` both get the key
`a=>b=>c`; the second is discarded, so `c` is no longer reachable from
`a=>b` through the returned links. -/
theorem claim_reachability_counterexample :
    Acyclic (validPairs
      (([⟨"a"⟩, ⟨"a=>b"⟩, ⟨"b=>c"⟩, ⟨"c"⟩] : List SkillNode).map (fun n => n.id))
      [⟨"a", "b=>c"⟩, ⟨"a=>b", "c"⟩])
    ∧ "a=>b" ∈ ([⟨"a"⟩, ⟨"a=>b"⟩, ⟨"b=>c"⟩, ⟨"c"⟩] : List SkillNode).map (fun n => n.id)
    ∧ "c" ∈ ([⟨"a"⟩, ⟨"a=>b"⟩, ⟨"b=>c"⟩, ⟨"c"⟩] : List SkillNode).map (fun n => n.id)
    ∧ Reaches (validPairs
        (([⟨"a"⟩, ⟨"a=>b"⟩, ⟨"b=>c"⟩, ⟨"c"⟩] : List SkillNode).map (fun n => n.id))
        [⟨"a", "b=>c"⟩, ⟨"a=>b", "c"⟩]) "a=>b" "c"
    ∧ ¬ Reaches (linkPairs (transitiveReduceLinks
        (some [⟨"a"⟩, ⟨"a=>b"⟩, ⟨"b=>c"⟩, ⟨"c"⟩])
        (some [⟨"a", "b=>c"⟩, ⟨"a=>b", "c"⟩]))) "a=>b" "c" := by
  refine ⟨?_, by decide, by decide, ?_, ?_⟩
  · exact acyclic_of_rank _ (fun s => if s = "a" ∨ s = "a=>b" then 0 else 1) (by decide)
  · exact Relation.ReflTransGen.single
      (show ("a=>b", "c") ∈ validPairs
        (([⟨"a"⟩, ⟨"a=>b"⟩, ⟨"b=>c"⟩, ⟨"c"⟩] : List SkillNode).map (fun n => n.id))
        [⟨"a", "b=>c"⟩, ⟨"a=>b", "c"⟩] from by decide)
  · intro h
    have hcomp : transitiveReduceLinks
        (some [⟨"a"⟩, ⟨"a=>b"⟩, ⟨"b=>c"⟩, ⟨"c"⟩])
        (some [⟨"a", "b=>c"⟩, ⟨"a=>b", "c"⟩])
        = ([⟨"a", "b=>c"⟩] : List SkillLink) := by decide
    rw [hcomp] at h
    have := reaches_no_out (by decide) h
    exact absurd this (by decide)

end PrereqGraph
